import Mathlib

/-!
# Verification of the TEI document mutation and suggestion-lifecycle engine

Shallow embedding of the core of `utils/teiUtils.ts`: the DOM-style document
tree, path addressing (`getNodeByPath`), the tree mutators
(`wrapSelectionInTag`, `unwrapTag`, `replaceNode`, `updateNodeText`), the
suggestion lifecycle (`acceptSuggestion`, `declineSuggestion`,
`acceptAllSuggestionsInNode`) and the page segmenter (`getPages`).

Modelling choices:
* A DOM `Node` is either an `Element` (tag name, ordered attribute list,
  ordered children) or a `Text` node; text content is a `List Char`
  (JavaScript string indexed by code units).
* The DOM `Document` object is a separate root (`XDoc`) holding the top-level
  child list; `getNodeByPath` returns the document itself on the empty path,
  a node, or null — encoded by the `Resolved` sum.
* The imperative operations clone the document and mutate it through parent
  pointers; here each is a pure function: the guard mirrors the source's
  type checks, and the mutation is a splice in the parent's child list,
  performed by recursion along the path (`editAtPath` / `editAtPathNorm`).
* `Node.normalize()` (called on the parent after unwrap / text-update /
  suggestion resolution) removes empty text nodes and merges adjacent text
  nodes throughout the subtree; `normalizeChildren` models it.
* `String.prototype.substring` clamps both arguments to `[0, length]` and
  swaps them when out of order; `jsSubstring` models it on `Int` offsets.
-/

/-- A DOM node: an element with tag name, attributes and ordered children,
or a text node with its character content. -/
inductive XNode where
  | element (tag : String) (attrs : List (String × String)) (children : List XNode)
  | text (content : List Char)

/-- The DOM `Document`: the root object owning the top-level child list. -/
structure XDoc where
  children : List XNode

mutual

/-- Decidable structural equality of nodes (the nested `List XNode` forces a
hand-written mutual definition). -/
def decEqXNode : (a b : XNode) → Decidable (a = b)
  | .text s, .text t =>
    if h : s = t then isTrue (by rw [h])
    else isFalse (by intro hh; injection hh; contradiction)
  | .element t1 a1 c1, .element t2 a2 c2 =>
    if h1 : t1 = t2 then
      if h2 : a1 = a2 then
        match decEqXNodeList c1 c2 with
        | isTrue h3 => isTrue (by rw [h1, h2, h3])
        | isFalse h3 => isFalse (by intro hh; injection hh; contradiction)
      else isFalse (by intro hh; injection hh; contradiction)
    else isFalse (by intro hh; injection hh; contradiction)
  | .text _, .element _ _ _ => isFalse (by intro hh; injection hh)
  | .element _ _ _, .text _ => isFalse (by intro hh; injection hh)

/-- Decidable structural equality of node lists. -/
def decEqXNodeList : (a b : List XNode) → Decidable (a = b)
  | [], [] => isTrue rfl
  | [], _ :: _ => isFalse (by intro hh; injection hh)
  | _ :: _, [] => isFalse (by intro hh; injection hh)
  | x :: xs, y :: ys =>
    match decEqXNode x y, decEqXNodeList xs ys with
    | isTrue h1, isTrue h2 => isTrue (by rw [h1, h2])
    | isFalse h1, _ => isFalse (by intro hh; injection hh; contradiction)
    | _, isFalse h2 => isFalse (by intro hh; injection hh; contradiction)

end

instance : DecidableEq XNode := decEqXNode

instance : DecidableEq XDoc := fun a b =>
  decidable_of_iff (a.children = b.children) (by cases a; cases b; simp)

/-- The DOM `node.childNodes`: a text node has an empty child list. -/
def XNode.childNodes : XNode → List XNode
  | .element _ _ cs => cs
  | .text _ => []

/-- ASCII lower-casing of one character, as `String.prototype.toLowerCase`
acts on the ASCII tag names compared in the source. -/
def lowerChar (c : Char) : Char :=
  if 65 ≤ c.toNat ∧ c.toNat ≤ 90 then Char.ofNat (c.toNat + 32) else c

/-- Model of `tagName.toLowerCase()` for the ASCII tag names the source
compares. -/
def toLowerAscii (s : String) : String :=
  ⟨s.data.map lowerChar⟩

/-- Model of `el.getAttribute(name)`: the value of the first attribute with the given
name, or null (`none`). -/
def getAttr (attrs : List (String × String)) (name : String) : Option String :=
  (attrs.find? (fun p => p.1 = name)).map Prod.snd

/-- Result of `getNodeByPath`: the Document object itself (empty path), an
ordinary node, or null. -/
inductive Resolved where
  | doc
  | node (n : XNode)
  | notFound
  deriving DecidableEq

/-- Walk a (non-empty remainder of a) path from a node, indexing into
`childNodes` at each step, as the loop in `getNodeByPath` does. -/
def descendPath : XNode → List Nat → Option XNode
  | n, [] => some n
  | n, i :: rest =>
    match n.childNodes.get? i with
    | some c => descendPath c rest
    | none => none

/-- Model of `getNodeByPath(doc, path)`: the empty path returns the document itself;
otherwise each index steps into the current node's `childNodes`, returning
null (`Resolved.notFound`) when an index is out of range. Paths are encoded
as `List Nat` (the source joins them with `:` into a string). -/
def getNodeByPath (d : XDoc) : List Nat → Resolved
  | [] => .doc
  | i :: rest =>
    match d.children.get? i with
    | some c =>
      match descendPath c rest with
      | some n => .node n
      | none => .notFound
    | none => .notFound

/-- The child list of the container (document or element) at a path inside a
child list; `none` when the path does not lead through elements. -/
def containerAt : List XNode → List Nat → Option (List XNode)
  | cs, [] => some cs
  | cs, i :: rest =>
    match cs.get? i with
    | some (.element _ _ cc) => containerAt cc rest
    | _ => none

/-- Replace the node at path `base ++ [i]` (for `i` the final index) by the
list `f target`, leaving everything else unchanged: the functional rendering
of the source's pattern "resolve the node in the clone, then splice inside
its parent's child list". Returns the list unchanged if the path misses. -/
def editAtPath (f : XNode → List XNode) : List XNode → List Nat → List XNode
  | cs, [] => cs
  | cs, [i] =>
    match cs.get? i with
    | some n => cs.take i ++ f n ++ cs.drop (i + 1)
    | none => cs
  | cs, i :: j :: rest =>
    match cs.get? i with
    | some (.element t a cc) => cs.set i (.element t a (editAtPath f cc (j :: rest)))
    | _ => cs

/-- The index clamping `String.prototype.substring` applies to each
argument: negative values become `0`, values past the end become the
length. -/
def clampIdx (s : List Char) (a : Int) : Nat :=
  (max 0 (min a (s.length : Int))).toNat

/-- Model of `String.prototype.substring(a, b)`: both indices clamped to
`[0, length]`, swapped when `a > b`. -/
def jsSubstring (s : List Char) (a b : Int) : List Char :=
  (s.take (max (clampIdx s a) (clampIdx s b))).drop (min (clampIdx s a) (clampIdx s b))

/-- Model of `String.prototype.substring(a)`: from the clamped index to the end. -/
def jsSubstringFrom (s : List Char) (a : Int) : List Char :=
  s.drop (clampIdx s a)

example : jsSubstring "hello".toList 1 3 = "el".toList := by decide
example : jsSubstring "hello".toList 3 1 = "el".toList := by decide
example : jsSubstring "hello".toList (-2) 99 = "hello".toList := by decide
example : jsSubstringFrom "hello".toList 3 = "lo".toList := by decide

example : getNodeByPath ⟨[.element "p" [] [.text "hi".toList]]⟩ [0, 0]
    = .node (.text "hi".toList) := by decide
example : getNodeByPath ⟨[.element "p" [] [.text "hi".toList]]⟩ [0, 1]
    = .notFound := by decide
example : getNodeByPath ⟨[.element "p" [] [.text "hi".toList]]⟩ []
    = .doc := by decide

/-- One step of text-run merging: prepend a normalized node to an already
normalized list, dropping it when it is an empty text node and merging it
with a leading text node. -/
def mergeStep : XNode → List XNode → List XNode
  | .text s, rest =>
    if s = [] then rest
    else
      match rest with
      | .text s2 :: rest2 => .text (s ++ s2) :: rest2
      | _ => .text s :: rest
  | n, rest => n :: rest

mutual

/-- The effect of `Node.normalize()` on a single node: normalize the whole subtree. -/
def normalizeNode : XNode → XNode
  | .text s => .text s
  | .element t a cs => .element t a (normalizeChildren cs)

/-- The effect of `Node.normalize()` on a child list: recursively normalize each child,
remove empty text nodes and merge adjacent text nodes into single runs. -/
def normalizeChildren : List XNode → List XNode
  | [] => []
  | c :: rest => mergeStep (normalizeNode c) (normalizeChildren rest)

end

example : normalizeChildren [.text "He".toList, .text "".toList, .text "llo".toList,
    .element "b" [] [.text "".toList], .text "x".toList]
    = [.text "Hello".toList, .element "b" [] [], .text "x".toList] := by decide

/-- Like `editAtPath`, but afterwards runs `parent.normalize()` on the
container that held the target (as `unwrapTag`, `updateNodeText` and
`acceptSuggestion` do). -/
def editAtPathNorm (f : XNode → List XNode) : List XNode → List Nat → List XNode
  | cs, [] => cs
  | cs, [i] =>
    match cs.get? i with
    | some n => normalizeChildren (cs.take i ++ f n ++ cs.drop (i + 1))
    | none => cs
  | cs, i :: j :: rest =>
    match cs.get? i with
    | some (.element t a cc) => cs.set i (.element t a (editAtPathNorm f cc (j :: rest)))
    | _ => cs

/-- Whether a sibling list starts with a text node (the only shape that can
interact with a text node prepended by `mergeStep`). -/
def textHeaded : List XNode → Bool
  | .text _ :: _ => true
  | _ => false

/-- Whether a sibling list ends with a text node. -/
def lastIsText (l : List XNode) : Bool :=
  match l.getLast? with
  | some (.text _) => true
  | _ => false

theorem mergeStep_append (n : XNode) (as bs : List XNode)
    (hbs : textHeaded bs = false) :
    mergeStep n (as ++ bs) = mergeStep n as ++ bs := by
  cases n with
  | element t a cs => rfl
  | text s =>
    by_cases hs : s = []
    · simp [mergeStep, hs]
    · cases as with
      | nil =>
        simp only [List.nil_append, mergeStep, if_neg hs]
        cases bs with
        | nil => rfl
        | cons b bs' =>
          cases b with
          | text s2 => simp [textHeaded] at hbs
          | element t a cs => rfl
      | cons a as' =>
        cases a with
        | text s2 => simp [mergeStep, if_neg hs]
        | element t a cs => simp [mergeStep, if_neg hs]

theorem normalizeChildren_cons (c : XNode) (rest : List XNode) :
    normalizeChildren (c :: rest) = mergeStep (normalizeNode c) (normalizeChildren rest) :=
  rfl

theorem mergeStep_elem (t : String) (a : List (String × String)) (cs : List XNode)
    (l : List XNode) : mergeStep (.element t a cs) l = .element t a cs :: l :=
  rfl

theorem mergeStep_text_nonmerge {s : List Char} {l : List XNode}
    (hs : s ≠ []) (hl : textHeaded l = false) :
    mergeStep (.text s) l = .text s :: l := by
  simp only [mergeStep, if_neg hs]
  cases l with
  | nil => rfl
  | cons x rest =>
    cases x with
    | text s2 => simp [textHeaded] at hl
    | element t a cs => rfl

theorem mergeStep_text_merge {s : List Char} (hs : s ≠ []) (s2 : List Char)
    (rest : List XNode) :
    mergeStep (.text s) (.text s2 :: rest) = .text (s ++ s2) :: rest := by
  simp only [mergeStep, if_neg hs]

theorem textHeaded_normalizeChildren {l : List XNode}
    (h : textHeaded l = false) : textHeaded (normalizeChildren l) = false := by
  cases l with
  | nil => rfl
  | cons c rest =>
    cases c with
    | text s => simp [textHeaded] at h
    | element t a cs =>
      rw [normalizeChildren_cons]
      show textHeaded (mergeStep (.element t a (normalizeChildren cs)) _) = false
      rw [mergeStep_elem]
      rfl

theorem normalizeChildren_append (xs ys : List XNode)
    (h : textHeaded (normalizeChildren ys) = false) :
    normalizeChildren (xs ++ ys) = normalizeChildren xs ++ normalizeChildren ys := by
  induction xs with
  | nil => simp [normalizeChildren]
  | cons c xs' ih =>
    rw [List.cons_append, normalizeChildren_cons, ih, normalizeChildren_cons,
      mergeStep_append _ _ _ h]

theorem norm_three_texts (sa sb sc : List Char) (suf : List XNode)
    (ha : sa ≠ []) (hb : sb ≠ []) (hc : sc ≠ [])
    (hsuf : textHeaded suf = false) :
    normalizeChildren (.text sa :: .text sb :: .text sc :: suf)
      = .text (sa ++ (sb ++ sc)) :: normalizeChildren suf := by
  have hN := textHeaded_normalizeChildren hsuf
  have e1 : normalizeChildren (XNode.text sc :: suf)
      = .text sc :: normalizeChildren suf := by
    rw [normalizeChildren_cons]
    exact mergeStep_text_nonmerge hc hN
  have e2 : normalizeChildren (XNode.text sb :: XNode.text sc :: suf)
      = .text (sb ++ sc) :: normalizeChildren suf := by
    rw [normalizeChildren_cons, e1]
    exact mergeStep_text_merge hb _ _
  rw [normalizeChildren_cons, e2]
  exact mergeStep_text_merge ha _ _

/-- Splicing three non-empty text runs between a non-text-final prefix and a
non-text-initial suffix and normalizing merges exactly the three runs. -/
theorem norm_splice_texts (pre suf : List XNode) (sa sb sc : List Char)
    (hpre : lastIsText pre = false) (hsuf : textHeaded suf = false)
    (ha : sa ≠ []) (hb : sb ≠ []) (hc : sc ≠ []) :
    normalizeChildren (pre ++ .text sa :: .text sb :: .text sc :: suf)
      = normalizeChildren pre ++ .text (sa ++ (sb ++ sc)) :: normalizeChildren suf := by
  rcases List.eq_nil_or_concat pre with hnil | ⟨pre', el, hcat⟩
  · subst hnil
    simpa using norm_three_texts sa sb sc suf ha hb hc hsuf
  · subst hcat
    rw [List.concat_eq_append] at hpre ⊢
    obtain ⟨t, a, cs, rfl⟩ : ∃ t a cs, el = XNode.element t a cs := by
      cases el with
      | element t a cs => exact ⟨t, a, cs, rfl⟩
      | text s =>
        exfalso
        simp [lastIsText, List.getLast?_append] at hpre
    have hmid : normalizeChildren (.element t a cs :: .text sa :: .text sb :: .text sc :: suf)
        = normalizeNode (.element t a cs) ::
            (.text (sa ++ (sb ++ sc)) :: normalizeChildren suf) := by
      rw [normalizeChildren_cons, norm_three_texts sa sb sc suf ha hb hc hsuf]
      show mergeStep (.element t a (normalizeChildren cs)) _ = _
      rw [mergeStep_elem]
      rfl
    have hhead : textHeaded
        (normalizeChildren (.element t a cs :: .text sa :: .text sb :: .text sc :: suf))
        = false := by
      rw [hmid]
      rfl
    have hsingle : normalizeChildren [XNode.element t a cs]
        = [normalizeNode (.element t a cs)] := by
      rw [normalizeChildren_cons]
      show mergeStep (.element t a (normalizeChildren cs)) _ = _
      rw [mergeStep_elem]
      rfl
    have hsinglehead : textHeaded (normalizeChildren [XNode.element t a cs]) = false := by
      rw [hsingle]
      rfl
    calc normalizeChildren ((pre' ++ [XNode.element t a cs]) ++
            .text sa :: .text sb :: .text sc :: suf)
        = normalizeChildren (pre' ++
            (.element t a cs :: .text sa :: .text sb :: .text sc :: suf)) := by
          rw [List.append_assoc]
          rfl
      _ = normalizeChildren pre' ++
            (normalizeNode (.element t a cs) ::
              (.text (sa ++ (sb ++ sc)) :: normalizeChildren suf)) := by
          rw [normalizeChildren_append _ _ hhead, hmid]
      _ = (normalizeChildren pre' ++ [normalizeNode (.element t a cs)]) ++
            (.text (sa ++ (sb ++ sc)) :: normalizeChildren suf) := by
          simp
      _ = normalizeChildren (pre' ++ [XNode.element t a cs]) ++
            .text (sa ++ (sb ++ sc)) :: normalizeChildren suf := by
          rw [normalizeChildren_append pre' [XNode.element t a cs] hsinglehead, hsingle]

/-! ## The tree mutators -/

/-- The three replacement pieces `wrapSelectionInTag` builds from the target
text node's content: a text node for `substring(0, startOffset)` (skipped
when empty), the new element whose `textContent` is set to
`substring(startOffset, endOffset)` (a sole text child, none when the
selection is empty), and a text node for `substring(endOffset)` (skipped
when empty). -/
def textPieces (content : List Char) (startOffset endOffset : Int)
    (tagName : String) : List XNode :=
  let beforeText := jsSubstring content 0 startOffset
  let selectedText := jsSubstring content startOffset endOffset
  let afterText := jsSubstringFrom content endOffset
  (if beforeText = [] then [] else [.text beforeText]) ++
    [.element tagName [] (if selectedText = [] then [] else [.text selectedText])] ++
    (if afterText = [] then [] else [.text afterText])

/-- Model of `wrapSelectionInTag(doc, path, startOffset, endOffset, tagName)`: when
the path resolves to a text node, replace it by the `textPieces` split of
its content inside its parent's child list; otherwise return the input
document unchanged. No normalization is performed. -/
def wrapSelectionInTag (d : XDoc) (path : List Nat) (startOffset endOffset : Int)
    (tagName : String) : XDoc :=
  match getNodeByPath d path with
  | .node (.text content) =>
    ⟨editAtPath (fun _ => textPieces content startOffset endOffset tagName) d.children path⟩
  | _ => d

/-- The assignment `node.textContent = newText`: a text node's data is overwritten; an
element's children are replaced by a single text node (none when the new
text is empty). -/
def setTextContent (n : XNode) (newText : List Char) : XNode :=
  match n with
  | .text _ => .text newText
  | .element t a _ => .element t a (if newText = [] then [] else [.text newText])

/-- Model of `updateNodeText(doc, path, newText)`: when the path resolves to a text
or element node, set its `textContent` and normalize its parent; otherwise
the (cloned) document is returned unchanged. Every resolved node reached
through a non-empty path has a parent, so the parent check always passes. -/
def updateNodeText (d : XDoc) (path : List Nat) (newText : List Char) : XDoc :=
  match getNodeByPath d path with
  | .node n => ⟨editAtPathNorm (fun _ => [setTextContent n newText]) d.children path⟩
  | _ => d

/-- Model of `unwrapTag(doc, path)`: when the path resolves to an element, splice all
of its children into its parent at its former position, remove the element
and normalize the parent; otherwise return the input unchanged. -/
def unwrapTag (d : XDoc) (path : List Nat) : XDoc :=
  match getNodeByPath d path with
  | .node (.element _ _ _) =>
    ⟨editAtPathNorm (fun n => n.childNodes) d.children path⟩
  | _ => d

/-- Model of `replaceNode(doc, path, newNode)`: when the path resolves to a node
(which then always has a parent), substitute the deep-imported `newNode` at
its position; no normalization. -/
def replaceNode (d : XDoc) (path : List Nat) (newNode : XNode) : XDoc :=
  match getNodeByPath d path with
  | .node _ => ⟨editAtPath (fun _ => [newNode]) d.children path⟩
  | _ => d

/-! ## The suggestion lifecycle -/

/-- The reserved entity tag set checked (lower-cased) by the deletion branch
of `acceptSuggestion`. -/
def entityTags : List String := ["persname", "placename", "name"]

/-- The deletion branch's first phase: each direct child of the suggestion
that is an element whose lower-cased tag is in the reserved entity set is
replaced in place by its own children; all other children stay. -/
def unwrapEntities (cs : List XNode) : List XNode :=
  cs.flatMap fun c =>
    match c with
    | .element t _ k => if entityTags.contains (toLowerAscii t) then k else [c]
    | _ => [c]

/-- Model of `acceptSuggestion(doc, path, ...)` with payload mode and type: a no-op unless the path
resolves to an element whose tag is exactly `suggestion`. For
`mode = "deletion"`, entity children are unwrapped and then the suggestion's
(remaining) children are spliced into the parent in its place; for any other
mode a new element named `type` receives all of the suggestion's children
and replaces it. The parent is normalized afterwards. -/
def acceptSuggestion (d : XDoc) (path : List Nat) (mode ty : String) : XDoc :=
  match getNodeByPath d path with
  | .node (.element tag _ k) =>
    if tag = "suggestion" then
      if mode = "deletion" then
        ⟨editAtPathNorm (fun _ => unwrapEntities k) d.children path⟩
      else
        ⟨editAtPathNorm (fun _ => [.element ty [] k]) d.children path⟩
    else d
  | _ => d

/-- Model of `declineSuggestion(doc, path)`, defined as `unwrapTag(doc, path)`. -/
def declineSuggestion (d : XDoc) (path : List Nat) : XDoc :=
  unwrapTag d path

/-- JavaScript `x || y` over a nullable string: `null` and `""` fall through
to the fallback. -/
def falsyOr (x : Option String) (y : String) : String :=
  match x with
  | some v => if v = "" then y else v
  | none => y

mutual

/-- Reading `Node.textContent`: the concatenation of all text data in the
subtree. -/
def textContentNode : XNode → List Char
  | .text s => s
  | .element _ _ cs => textContentList cs

/-- Reading `textContent` over a list of siblings, in order. -/
def textContentList : List XNode → List Char
  | [] => []
  | c :: rest => textContentNode c ++ textContentList rest

end

mutual

/-- The effect of `acceptAllSuggestionsInNode` on one node: the replacement
(one or more siblings) for that node once every suggestion in its subtree
has been resolved. The source collects `querySelectorAll('suggestion')`
into a snapshot and processes it in reverse document order, so every
suggestion is rewritten only after all suggestions in its own subtree have
been; sibling subtrees do not interact, so that processing is exactly this
bottom-up rewrite. A suggestion with `mode = "deletion"` has its (already
resolved) entity children unwrapped and is then spliced away; otherwise it
is replaced by a new element named by its `type` attribute (`'name'` when
the attribute is null or empty, mirroring `getAttribute('type') || 'name'`)
holding its children. Elements freshly created by a resolution are not in
the snapshot and are never re-examined, which this recursion also mirrors. -/
def resolveAllNode : XNode → List XNode
  | .text s => [.text s]
  | .element t a cs =>
    let cs' := resolveAllList cs
    if t = "suggestion" then
      if getAttr a "mode" = some "deletion" then
        unwrapEntities cs'
      else
        [.element (falsyOr (getAttr a "type") "name") [] cs']
    else
      [.element t a cs']

/-- The map of `resolveAllNode` over a sibling list. -/
def resolveAllList : List XNode → List XNode
  | [] => []
  | c :: rest => resolveAllNode c ++ resolveAllList rest

end

/-- Model of `acceptAllSuggestionsInNode(doc, targetNode)`: a no-op unless the target
is an element; resolves every suggestion strictly under the target (the
target's own tag is never examined: `querySelectorAll` matches only
descendants). The source mutates the caller-owned node in place; here the
rewritten node is returned. -/
def acceptAllSuggestionsInNode : XNode → XNode
  | .element t a cs => .element t a (resolveAllList cs)
  | n => n

/-! ## The page segmenter -/

/-- A page unit produced by `getPages`. -/
structure PageInfo where
  id : String
  path : List Nat
  node : XNode
  deriving DecidableEq

/-- The `id` of an emitted page: `el.getAttribute('xml:id') ||
el.getAttribute('id') || "page-" + (pages.length + 1)` with `count` the
number of pages already emitted. -/
def pageId (a : List (String × String)) (count : Nat) : String :=
  falsyOr (getAttr a "xml:id")
    (falsyOr (getAttr a "id") ("page-" ++ toString (count + 1)))

mutual

/-- The `traverse` helper of `getPages`: at an element whose lower-cased tag
is `div`, emit a page (its id fallback numbered by the pages already
collected) and do not descend; otherwise recurse into the children,
extending the path with each child's index. -/
def pagesNode (n : XNode) (path : List Nat) (acc : List PageInfo) : List PageInfo :=
  match n with
  | .text _ => acc
  | .element t a cs =>
    if toLowerAscii t = "div" then
      acc ++ [⟨pageId a acc.length, path, .element t a cs⟩]
    else
      pagesList cs 0 path acc

/-- The `traverse` loop over a child list starting at child index `i`. -/
def pagesList (cs : List XNode) (i : Nat) (path : List Nat) (acc : List PageInfo) :
    List PageInfo :=
  match cs with
  | [] => acc
  | c :: rest => pagesList rest (i + 1) path (pagesNode c (path ++ [i]) acc)

end

/-- Model of `getPages(doc)`: traverse every top-level child of the document. -/
def getPages (d : XDoc) : List PageInfo :=
  pagesList d.children 0 [] []

/-! ## Path lemmas: resolution and localized edits -/

/-- Resolution of a path inside a child list (`getNodeByPath` without the
document object: the empty path resolves to nothing here). -/
def resolveList : List XNode → List Nat → Option XNode
  | _, [] => none
  | cs, i :: rest =>
    match cs.get? i with
    | some c => descendPath c rest
    | none => none

theorem getNodeByPath_cons (d : XDoc) (i : Nat) (rest : List Nat) :
    getNodeByPath d (i :: rest) =
      match resolveList d.children (i :: rest) with
      | some n => .node n
      | none => .notFound := by
  simp only [getNodeByPath, resolveList]
  cases d.children.get? i with
  | none => rfl
  | some c => cases descendPath c rest <;> rfl

/-- Apply `g` to the child list of the container at `base`, leaving the rest
of the tree unchanged; the shape shared by every localized mutation. -/
def mapContainer (g : List XNode → List XNode) : List XNode → List Nat → List XNode
  | cs, [] => g cs
  | cs, i :: rest =>
    match cs.get? i with
    | some (.element t a cc) => cs.set i (.element t a (mapContainer g cc rest))
    | _ => cs

/-- Replace the child list of the container at `base` outright. -/
def replaceContainerAt (cs : List XNode) (base : List Nat) (newChildren : List XNode) :
    List XNode :=
  mapContainer (fun _ => newChildren) cs base

/-- Resolving one step past a container yields exactly the indexed child. -/
theorem descendPath_container {m : XNode} {base : List Nat} {k : List XNode}
    (hk : containerAt m.childNodes base = some k) (i : Nat) :
    descendPath m (base ++ [i]) = k.get? i := by
  induction base generalizing m with
  | nil =>
    simp only [containerAt] at hk
    cases hk
    simp only [List.nil_append, descendPath]
    cases h : m.childNodes.get? i with
    | none => rfl
    | some c => simp [descendPath]
  | cons j rest ih =>
    simp only [containerAt] at hk
    simp only [List.cons_append, descendPath]
    cases hc : m.childNodes.get? j with
    | none => rw [hc] at hk; exact absurd hk (by simp)
    | some c =>
      rw [hc] at hk
      cases c with
      | text s => exact absurd hk (by simp)
      | element t a cc => exact ih (m := .element t a cc) hk

/-- Resolving `base ++ [i]` with `resolveList` yields the `i`-th child of the container at
`base`. -/
theorem resolveList_container {cs : List XNode} {base : List Nat} {k : List XNode}
    (hk : containerAt cs base = some k) (i : Nat) :
    resolveList cs (base ++ [i]) = k.get? i := by
  cases base with
  | nil =>
    simp only [containerAt] at hk
    cases hk
    simp only [List.nil_append, resolveList]
    cases h : cs.get? i with
    | none => rfl
    | some c => simp [descendPath]
  | cons j rest =>
    simp only [containerAt] at hk
    simp only [List.cons_append, resolveList]
    cases hc : cs.get? j with
    | none => rw [hc] at hk; exact absurd hk (by simp)
    | some c =>
      rw [hc] at hk
      cases c with
      | text s => exact absurd hk (by simp)
      | element t a cc => exact descendPath_container (m := .element t a cc) hk i

/-- An edit at `base ++ [i]` is exactly a replacement of the container's
child list at `base` by the spliced list, everything else untouched. -/
theorem editAtPath_eq_replace {cs : List XNode} {base : List Nat} {k : List XNode}
    (hk : containerAt cs base = some k) {i : Nat} {n : XNode}
    (hi : k.get? i = some n) (f : XNode → List XNode) :
    editAtPath f cs (base ++ [i]) =
      replaceContainerAt cs base (k.take i ++ f n ++ k.drop (i + 1)) := by
  induction base generalizing cs with
  | nil =>
    simp only [containerAt] at hk
    cases hk
    simp only [List.nil_append, editAtPath, replaceContainerAt, mapContainer, hi]
  | cons j rest ih =>
    simp only [containerAt] at hk
    simp only [List.cons_append, replaceContainerAt, mapContainer]
    cases hc : cs.get? j with
    | none =>
      rw [hc] at hk; exact absurd hk (by simp)
    | some c =>
      rw [hc] at hk
      cases c with
      | text s => exact absurd hk (by simp)
      | element t a cc =>
        have : editAtPath f cs (j :: (rest ++ [i])) =
            cs.set j (.element t a (editAtPath f cc (rest ++ [i]))) := by
          cases rest with
          | nil => simp only [List.nil_append, editAtPath, hc]
          | cons r rs => simp only [List.cons_append, editAtPath, hc, List.append_eq]
        rw [this, ih hk]
        rfl

/-- Same statement for the normalizing edit. -/
theorem editAtPathNorm_eq_replace {cs : List XNode} {base : List Nat} {k : List XNode}
    (hk : containerAt cs base = some k) {i : Nat} {n : XNode}
    (hi : k.get? i = some n) (f : XNode → List XNode) :
    editAtPathNorm f cs (base ++ [i]) =
      replaceContainerAt cs base (normalizeChildren (k.take i ++ f n ++ k.drop (i + 1))) := by
  induction base generalizing cs with
  | nil =>
    simp only [containerAt] at hk
    cases hk
    simp only [List.nil_append, editAtPathNorm, replaceContainerAt, mapContainer, hi]
  | cons j rest ih =>
    simp only [containerAt] at hk
    simp only [List.cons_append, replaceContainerAt, mapContainer]
    cases hc : cs.get? j with
    | none =>
      rw [hc] at hk; exact absurd hk (by simp)
    | some c =>
      rw [hc] at hk
      cases c with
      | text s => exact absurd hk (by simp)
      | element t a cc =>
        have : editAtPathNorm f cs (j :: (rest ++ [i])) =
            cs.set j (.element t a (editAtPathNorm f cc (rest ++ [i]))) := by
          cases rest with
          | nil => simp only [List.nil_append, editAtPathNorm, hc]
          | cons r rs => simp only [List.cons_append, editAtPathNorm, hc, List.append_eq]
        rw [this, ih hk]
        rfl

/-- After replacing the container's children at `base`, the container at
`base` holds exactly the new children. -/
theorem containerAt_replace {cs : List XNode} {base : List Nat} {k : List XNode}
    (hk : containerAt cs base = some k) (l : List XNode) :
    containerAt (replaceContainerAt cs base l) base = some l := by
  induction base generalizing cs with
  | nil => simp [containerAt, replaceContainerAt, mapContainer]
  | cons j rest ih =>
    simp only [containerAt] at hk
    cases hc : cs.get? j with
    | none => rw [hc] at hk; exact absurd hk (by simp)
    | some c =>
      rw [hc] at hk
      cases c with
      | text s => exact absurd hk (by simp)
      | element t a cc =>
        have hj : j < cs.length := (List.get?_eq_some.mp hc).1
        simp only [replaceContainerAt, mapContainer, hc, containerAt]
        rw [List.get?_set_eq_of_lt _ hj]
        exact ih hk

theorem getNodeByPath_of_resolveList {d : XDoc} {p : List Nat} {n : XNode}
    (hp : p ≠ []) (h : resolveList d.children p = some n) :
    getNodeByPath d p = .node n := by
  cases p with
  | nil => exact absurd rfl hp
  | cons i rest => rw [getNodeByPath_cons, h]

theorem getNodeByPath_node_elim {d : XDoc} {p : List Nat} {n : XNode}
    (hp : p ≠ []) (h : getNodeByPath d p = .node n) :
    resolveList d.children p = some n := by
  cases p with
  | nil => exact absurd rfl hp
  | cons i rest =>
    rw [getNodeByPath_cons] at h
    cases hr : resolveList d.children (i :: rest) with
    | none => rw [hr] at h; exact absurd h (by simp)
    | some m => rw [hr] at h; cases h; rfl

/-! ## Claim theorems -/

/-- C1 (amended): when the path fails to resolve to a node of the kind an
operation requires — a text node for `wrapSelectionInTag`, an element for
`unwrapTag` and for `declineSuggestion` (which is defined as `unwrapTag` and
therefore unwraps *any* element, suggestion-tagged or not), any node for
`replaceNode` and `updateNodeText`, an element tagged exactly `suggestion`
for `acceptSuggestion` — the operation returns a document structurally equal
to the input: a silent no-op, never a partial mutation. (The original
claim's assertion that `declineSuggestion` is also a no-op on a
non-suggestion-tagged element is refuted by `claim_C1_counterexample`.) -/
theorem claim_C1_failsoft (d : XDoc) (p : List Nat) :
    (∀ (s e : Int) (g : String), (∀ c, getNodeByPath d p ≠ .node (.text c)) →
        wrapSelectionInTag d p s e g = d)
    ∧ ((∀ t a cs, getNodeByPath d p ≠ .node (.element t a cs)) →
        unwrapTag d p = d ∧ declineSuggestion d p = d)
    ∧ (∀ x, (∀ n, getNodeByPath d p ≠ .node n) → replaceNode d p x = d)
    ∧ (∀ s, (∀ n, getNodeByPath d p ≠ .node n) → updateNodeText d p s = d)
    ∧ (∀ mode ty, (∀ a cs, getNodeByPath d p ≠ .node (.element "suggestion" a cs)) →
        acceptSuggestion d p mode ty = d) := by
  refine ⟨?_, ?_, ?_, ?_, ?_⟩
  · intro s e g h
    unfold wrapSelectionInTag
    cases hr : getNodeByPath d p with
    | doc => rfl
    | notFound => rfl
    | node n =>
      cases n with
      | text c => exact absurd hr (h c)
      | element t a cs => rfl
  · intro h
    have hu : unwrapTag d p = d := by
      unfold unwrapTag
      cases hr : getNodeByPath d p with
      | doc => rfl
      | notFound => rfl
      | node n =>
        cases n with
        | text c => rfl
        | element t a cs => exact absurd hr (h t a cs)
    exact ⟨hu, hu⟩
  · intro x h
    unfold replaceNode
    cases hr : getNodeByPath d p with
    | doc => rfl
    | notFound => rfl
    | node n => exact absurd hr (h n)
  · intro s h
    unfold updateNodeText
    cases hr : getNodeByPath d p with
    | doc => rfl
    | notFound => rfl
    | node n => exact absurd hr (h n)
  · intro mode ty h
    unfold acceptSuggestion
    cases hr : getNodeByPath d p with
    | doc => rfl
    | notFound => rfl
    | node n =>
      cases n with
      | text c => rfl
      | element t a cs =>
        by_cases ht : t = "suggestion"
        · subst ht; exact absurd hr (h a cs)
        · simp only [if_neg ht]

/-- C1 counterexample: the claim as stated also requires `declineSuggestion`
to be a no-op when the path resolves to a non-suggestion-tagged element, but
`declineSuggestion` is `unwrapTag` and unwraps the `persName` element. -/
theorem claim_C1_counterexample :
    getNodeByPath ⟨[.element "p" [] [.element "persName" [] [.text "x".toList]]]⟩ [0, 0]
      = .node (.element "persName" [] [.text "x".toList])
    ∧ "persName" ≠ "suggestion"
    ∧ declineSuggestion ⟨[.element "p" [] [.element "persName" [] [.text "x".toList]]]⟩ [0, 0]
      ≠ ⟨[.element "p" [] [.element "persName" [] [.text "x".toList]]]⟩ := by
  refine ⟨by decide, by decide, ?_⟩
  intro h
  have : declineSuggestion ⟨[.element "p" [] [.element "persName" [] [.text "x".toList]]]⟩ [0, 0]
      = ⟨[.element "p" [] [.text "x".toList]]⟩ := by decide
  rw [this] at h
  exact absurd (congrArg XDoc.children h) (by decide)

/-- C1 witness: on the empty document no path resolves, and every operation
returns the document unchanged. -/
theorem claim_C1_failsoft_witness :
    wrapSelectionInTag ⟨[]⟩ [0] 0 1 "persName" = ⟨[]⟩
    ∧ unwrapTag ⟨[]⟩ [0] = ⟨[]⟩
    ∧ declineSuggestion ⟨[]⟩ [0] = ⟨[]⟩
    ∧ replaceNode ⟨[]⟩ [0] (.text "y".toList) = ⟨[]⟩
    ∧ updateNodeText ⟨[]⟩ [0] "y".toList = ⟨[]⟩
    ∧ acceptSuggestion ⟨[]⟩ [0] "addition" "persName" = ⟨[]⟩ := by
  have h := claim_C1_failsoft ⟨[]⟩ [0]
  have hnf : getNodeByPath (⟨[]⟩ : XDoc) [0] = .notFound := by decide
  have hno : ∀ n : XNode, getNodeByPath (⟨[]⟩ : XDoc) [0] ≠ .node n := by
    intro n hc
    rw [hnf] at hc
    exact Resolved.noConfusion hc
  refine ⟨h.1 0 1 "persName" (fun c => hno _), (h.2.1 (fun t a cs => hno _)).1,
    (h.2.1 (fun t a cs => hno _)).2, h.2.2.1 _ (fun n => hno _),
    h.2.2.2.1 _ (fun n => hno _), h.2.2.2.2 "addition" "persName" (fun a cs => hno _)⟩


theorem clampIdx_of_range {c : List Char} {a : Int} (h0 : 0 ≤ a)
    (hlen : a ≤ (c.length : Int)) : clampIdx c a = a.toNat := by
  unfold clampIdx
  rw [min_eq_left hlen, max_eq_right h0]

theorem clampIdx_zero (c : List Char) : clampIdx c 0 = 0 := by
  unfold clampIdx
  rw [min_eq_left (Int.ofNat_nonneg c.length), max_self, Int.toNat_zero]

theorem jsSubstring_zero_left {c : List Char} {s : Int} (hs : 0 ≤ s)
    (hlen : s ≤ (c.length : Int)) :
    jsSubstring c 0 s = c.take s.toNat := by
  unfold jsSubstring
  rw [clampIdx_zero, clampIdx_of_range hs hlen]
  rw [Nat.max_eq_right (Nat.zero_le _), Nat.min_eq_left (Nat.zero_le _), List.drop_zero]

theorem jsSubstring_range {c : List Char} {s e : Int} (hs : 0 ≤ s) (hse : s ≤ e)
    (he : e ≤ (c.length : Int)) :
    jsSubstring c s e = (c.take e.toNat).drop s.toNat := by
  unfold jsSubstring
  rw [clampIdx_of_range hs (hse.trans he), clampIdx_of_range (hs.trans hse) he]
  have h5 : s.toNat ≤ e.toNat := Int.toNat_le_toNat hse
  rw [Nat.max_eq_right h5, Nat.min_eq_left h5]

theorem jsSubstringFrom_range {c : List Char} {e : Int} (he0 : 0 ≤ e)
    (he : e ≤ (c.length : Int)) :
    jsSubstringFrom c e = c.drop e.toNat := by
  unfold jsSubstringFrom
  rw [clampIdx_of_range he0 he]

/-- C2 (amended): for a path resolving to a text node and offsets
`0 ≤ s ≤ e ≤ length`, `wrapSelectionInTag` replaces exactly that text node,
in document order, by a text node for `t[0,s)` (omitted when empty), a new
element named `tagName` holding a text node for `t[s,e)` as its sole child
(childless when `s = e`, since setting `textContent` to the empty string
adds no child — this is the one correction to the claim, refuted as stated
by `claim_C2_counterexample`), and a text node for `t[e,end)` (omitted when
empty); every other node of the document is unchanged
(`replaceContainerAt` rewrites only the parent's child list). -/
theorem claim_C2_wrap_splits (d : XDoc) (base : List Nat) (i : Nat) (k : List XNode)
    (content : List Char) (s e : Int) (g : String)
    (hk : containerAt d.children base = some k)
    (hi : k.get? i = some (.text content))
    (hs : 0 ≤ s) (hse : s ≤ e) (he : e ≤ (content.length : Int)) :
    wrapSelectionInTag d (base ++ [i]) s e g =
      ⟨replaceContainerAt d.children base
        (k.take i ++
          ((if content.take s.toNat = [] then [] else [.text (content.take s.toNat)]) ++
            [.element g [] (if (content.take e.toNat).drop s.toNat = [] then []
              else [.text ((content.take e.toNat).drop s.toNat)])] ++
            (if content.drop e.toNat = [] then [] else [.text (content.drop e.toNat)])) ++
          k.drop (i + 1))⟩ := by
  have hres : resolveList d.children (base ++ [i]) = some (.text content) :=
    (resolveList_container hk i).trans hi
  have hnode := getNodeByPath_of_resolveList (by simp) hres
  unfold wrapSelectionInTag
  rw [hnode]
  show (⟨editAtPath (fun _ => textPieces content s e g) d.children (base ++ [i])⟩ : XDoc) = _
  rw [editAtPath_eq_replace hk hi]
  have hpieces : textPieces content s e g =
      (if content.take s.toNat = [] then [] else [.text (content.take s.toNat)]) ++
        [.element g [] (if (content.take e.toNat).drop s.toNat = [] then []
          else [.text ((content.take e.toNat).drop s.toNat)])] ++
        (if content.drop e.toNat = [] then [] else [.text (content.drop e.toNat)]) := by
    unfold textPieces
    rw [jsSubstring_zero_left hs (hse.trans he), jsSubstring_range hs hse he,
      jsSubstringFrom_range (hs.trans hse) he]
  rw [hpieces]

/-- C2 counterexample: with an empty selection (`s = e = 1` in `"ab"`) the
new element is created with *no* child, not with an empty text-node sole
child as the claim states. -/
theorem claim_C2_counterexample :
    wrapSelectionInTag ⟨[.element "p" [] [.text "ab".toList]]⟩ [0, 0] 1 1 "persName"
      = ⟨[.element "p" [] [.text "a".toList, .element "persName" [] [],
          .text "b".toList]]⟩
    ∧ getNodeByPath (wrapSelectionInTag ⟨[.element "p" [] [.text "ab".toList]]⟩
        [0, 0] 1 1 "persName") [0, 1] = .node (.element "persName" [] [])
    ∧ XNode.element "persName" [] []
        ≠ .element "persName" [] [.text (jsSubstring "ab".toList 1 1)] := by
  refine ⟨by decide, by decide, ?_⟩
  intro h
  exact absurd (congrArg XNode.childNodes h) (by decide)

/-- C2 witness: wrapping `[1,2)` of `"abc"` in a `persName` element. -/
theorem claim_C2_wrap_splits_witness :
    wrapSelectionInTag ⟨[.element "p" [] [.text "abc".toList]]⟩ [0, 0] 1 2 "persName"
      = ⟨[.element "p" [] [.text "a".toList, .element "persName" [] [.text "b".toList],
          .text "c".toList]]⟩ := by
  have h := claim_C2_wrap_splits ⟨[.element "p" [] [.text "abc".toList]]⟩ [0] 0
    [.text "abc".toList] "abc".toList 1 2 "persName" (by decide) (by decide)
    (by decide) (by decide) (by decide)
  exact h.trans (by decide)

/-- C3: for a path resolving to an element (which, being reached through its
parent's `childNodes`, always has a parent), `unwrapTag` splices all of the
element's children into the parent at its former position, in order, removes
the element, and normalizes the parent (merging adjacent text siblings into
single runs); in particular unwrapping the entity element of
`<p>Hello <persName>John</persName></p>` yields `<p>Hello John</p>` with the
two text runs merged into one text node. -/
theorem claim_C3_unwrap_splices (d : XDoc) (base : List Nat) (i : Nat) (k : List XNode)
    (t : String) (a : List (String × String)) (cc : List XNode)
    (hk : containerAt d.children base = some k)
    (hi : k.get? i = some (.element t a cc)) :
    unwrapTag d (base ++ [i]) =
      ⟨replaceContainerAt d.children base
        (normalizeChildren (k.take i ++ cc ++ k.drop (i + 1)))⟩
    ∧ unwrapTag ⟨[.element "p" [] [.text "Hello ".toList,
        .element "persName" [] [.text "John".toList]]]⟩ [0, 1]
      = ⟨[.element "p" [] [.text "Hello John".toList]]⟩ := by
  constructor
  · have hres : resolveList d.children (base ++ [i]) = some (.element t a cc) :=
      (resolveList_container hk i).trans hi
    have hnode := getNodeByPath_of_resolveList (by simp) hres
    unfold unwrapTag
    rw [hnode]
    show (⟨editAtPathNorm (fun n => n.childNodes) d.children (base ++ [i])⟩ : XDoc) = _
    rw [editAtPathNorm_eq_replace hk hi]
    rfl
  · decide

/-- C3 witness: the general clause applied to the concrete fragment. -/
theorem claim_C3_unwrap_splices_witness :
    unwrapTag ⟨[.element "p" [] [.text "Hello ".toList,
        .element "persName" [] [.text "John".toList]]]⟩ ([0] ++ [1])
      = ⟨replaceContainerAt [.element "p" [] [.text "Hello ".toList,
          .element "persName" [] [.text "John".toList]]] [0]
          (normalizeChildren
            ([.text "Hello ".toList, .element "persName" [] [.text "John".toList]].take 1 ++
              [.text "John".toList] ++
              [.text "Hello ".toList, .element "persName" [] [.text "John".toList]].drop 2))⟩ :=
  (claim_C3_unwrap_splices ⟨[.element "p" [] [.text "Hello ".toList,
      .element "persName" [] [.text "John".toList]]]⟩ [0] 1
    [.text "Hello ".toList, .element "persName" [] [.text "John".toList]]
    "persName" [] [.text "John".toList] (by decide) (by decide)).1

/-- C4: wrap/unwrap round-trip. For a text node `"abc"` at `base ++ [i]`
whose immediate neighbor siblings are not text nodes (otherwise the final
normalization would merge them into the restored run, which the claim's
"adjacent runs having been merged" parenthetical sets aside), wrapping
`[1,2)` in any tag and unwrapping the wrapper (created at index `i + 1`,
after the nonempty `"a"` text node) restores a parent whose children carry
the single text run `"abc"` at the corresponding position. -/
theorem claim_C4_roundtrip (d : XDoc) (base : List Nat) (i : Nat) (k : List XNode)
    (g : String)
    (hk : containerAt d.children base = some k)
    (hi : k.get? i = some (.text "abc".toList))
    (hpre : lastIsText (k.take i) = false)
    (hsuf : textHeaded (k.drop (i + 1)) = false) :
    containerAt (unwrapTag (wrapSelectionInTag d (base ++ [i]) 1 2 g)
        (base ++ [i + 1])).children base
      = some (normalizeChildren (k.take i) ++ .text "abc".toList ::
          normalizeChildren (k.drop (i + 1))) := by
  have hilt : i < k.length := (List.get?_eq_some.mp hi).1
  have hlen : (k.take i).length = i := by
    rw [List.length_take]
    exact Nat.min_eq_left (Nat.le_of_lt hilt)
  have hpieces : textPieces "abc".toList 1 2 g =
      [.text "a".toList, .element g [] [.text "b".toList], .text "c".toList] := rfl
  -- step 1: the wrap replaces the text node by the three pieces
  have hres : resolveList d.children (base ++ [i]) = some (.text "abc".toList) :=
    (resolveList_container hk i).trans hi
  have hnode := getNodeByPath_of_resolveList (by simp) hres
  have hwrap : wrapSelectionInTag d (base ++ [i]) 1 2 g =
      ⟨replaceContainerAt d.children base
        (k.take i ++ textPieces "abc".toList 1 2 g ++ k.drop (i + 1))⟩ := by
    unfold wrapSelectionInTag
    rw [hnode]
    show (⟨editAtPath (fun _ => textPieces "abc".toList 1 2 g)
        d.children (base ++ [i])⟩ : XDoc) = _
    rw [editAtPath_eq_replace hk hi]
  set L1 : List XNode :=
    k.take i ++ [XNode.text "a".toList, .element g [] [.text "b".toList],
      .text "c".toList] ++ k.drop (i + 1) with hL1
  have hwrap2 : wrapSelectionInTag d (base ++ [i]) 1 2 g =
      ⟨replaceContainerAt d.children base L1⟩ := by
    rw [hwrap, hpieces]
  -- step 2: the container of the wrapped document at `base` holds `L1`
  have hk1 : containerAt (replaceContainerAt d.children base L1) base = some L1 :=
    containerAt_replace hk L1
  -- step 3: the wrapper element sits at index `i + 1` of `L1`
  have hgetL1 : L1.get? (i + 1) = some (.element g [] [.text "b".toList]) := by
    rw [hL1, List.append_assoc, List.get?_append_right (by rw [hlen]; omega)]
    rw [hlen]
    have : i + 1 - i = 1 := by omega
    rw [this]
    rfl
  -- step 4: unwrapping the wrapper normalizes the spliced child list
  have hres2 : resolveList (replaceContainerAt d.children base L1) (base ++ [i + 1])
      = some (.element g [] [.text "b".toList]) :=
    (resolveList_container hk1 (i + 1)).trans hgetL1
  have hnode2 : getNodeByPath ⟨replaceContainerAt d.children base L1⟩ (base ++ [i + 1])
      = .node (.element g [] [.text "b".toList]) :=
    getNodeByPath_of_resolveList (by simp) hres2
  have hunwrap : unwrapTag ⟨replaceContainerAt d.children base L1⟩ (base ++ [i + 1]) =
      ⟨replaceContainerAt (replaceContainerAt d.children base L1) base
        (normalizeChildren (L1.take (i + 1) ++ [.text "b".toList] ++ L1.drop (i + 2)))⟩ := by
    unfold unwrapTag
    rw [hnode2]
    show (⟨editAtPathNorm (fun n => n.childNodes)
        (replaceContainerAt d.children base L1) (base ++ [i + 1])⟩ : XDoc) = _
    rw [editAtPathNorm_eq_replace hk1 hgetL1]
    rfl
  -- step 5: compute the spliced list
  have htake : L1.take (i + 1) = k.take i ++ [XNode.text "a".toList] := by
    rw [hL1, List.append_assoc, List.take_append_eq_append_take, hlen,
      List.take_of_length_le (by rw [hlen]; omega)]
    have : i + 1 - i = 1 := by omega
    rw [this]
    rfl
  have hdrop : L1.drop (i + 2) = XNode.text "c".toList :: k.drop (i + 1) := by
    rw [hL1, List.append_assoc, List.drop_append_eq_append_drop, hlen,
      List.drop_of_length_le (by rw [hlen]; omega)]
    have : i + 2 - i = 2 := by omega
    rw [this]
    rfl
  have hsplice : L1.take (i + 1) ++ [XNode.text "b".toList] ++ L1.drop (i + 2)
      = k.take i ++ .text "a".toList :: .text "b".toList :: .text "c".toList ::
          k.drop (i + 1) := by
    rw [htake, hdrop]
    simp
  have hnorm : normalizeChildren (L1.take (i + 1) ++ [XNode.text "b".toList] ++
        L1.drop (i + 2))
      = normalizeChildren (k.take i) ++ .text "abc".toList ::
          normalizeChildren (k.drop (i + 1)) := by
    rw [hsplice, norm_splice_texts _ _ _ _ _ hpre hsuf (by decide) (by decide) (by decide)]
    rfl
  rw [hwrap2, hunwrap, hnorm]
  exact containerAt_replace hk1 _

/-- C4 witness: the round trip on a one-paragraph document. -/
theorem claim_C4_roundtrip_witness :
    containerAt (unwrapTag (wrapSelectionInTag
        ⟨[.element "p" [] [.text "abc".toList]]⟩ ([0] ++ [0]) 1 2 "persName")
        ([0] ++ [0 + 1])).children [0]
      = some (normalizeChildren ([XNode.text "abc".toList].take 0) ++ .text "abc".toList ::
          normalizeChildren ([XNode.text "abc".toList].drop (0 + 1))) :=
  claim_C4_roundtrip ⟨[.element "p" [] [.text "abc".toList]]⟩ [0] 0
    [.text "abc".toList] "persName" (by decide) (by decide) (by decide) (by decide)

/-- C5: accepting a suggestion with mode `addition` or `correction` creates
a new element named by the payload's `type`, transfers all of the
suggestion's children into it wholesale (the child list `cc` is moved as-is,
so nested markup elements are preserved, not flattened to text), replaces
the suggestion with this new element at the same position, and then
normalizes the parent. -/
theorem claim_C5_accept_addition (d : XDoc) (base : List Nat) (i : Nat) (k : List XNode)
    (a : List (String × String)) (cc : List XNode) (mode ty : String)
    (hk : containerAt d.children base = some k)
    (hi : k.get? i = some (.element "suggestion" a cc))
    (hmode : mode = "addition" ∨ mode = "correction") :
    acceptSuggestion d (base ++ [i]) mode ty =
      ⟨replaceContainerAt d.children base
        (normalizeChildren (k.take i ++ [.element ty [] cc] ++ k.drop (i + 1)))⟩ := by
  have hres : resolveList d.children (base ++ [i]) = some (.element "suggestion" a cc) :=
    (resolveList_container hk i).trans hi
  have hnode := getNodeByPath_of_resolveList (by simp) hres
  have hdel : mode ≠ "deletion" := by
    rcases hmode with h | h <;> rw [h] <;> intro hc <;> exact absurd hc (by decide)
  unfold acceptSuggestion
  rw [hnode]
  show (if "suggestion" = "suggestion" then
      if mode = "deletion" then
        (⟨editAtPathNorm (fun _ => unwrapEntities cc) d.children (base ++ [i])⟩ : XDoc)
      else ⟨editAtPathNorm (fun _ => [.element ty [] cc]) d.children (base ++ [i])⟩
    else d) = _
  rw [if_pos rfl, if_neg hdel, editAtPathNorm_eq_replace hk hi]

/-- C5 witness: accepting an addition suggestion that contains nested
markup transfers the nested element intact into the new `persName`. -/
theorem claim_C5_accept_addition_witness :
    acceptSuggestion ⟨[.element "p" [] [.element "suggestion" [("mode", "addition")]
        [.text "by ".toList, .element "hi" [] [.text "R.".toList]]]]⟩ ([0] ++ [0])
        "addition" "persName"
      = ⟨replaceContainerAt [.element "p" [] [.element "suggestion" [("mode", "addition")]
          [.text "by ".toList, .element "hi" [] [.text "R.".toList]]]] [0]
          (normalizeChildren
            ([XNode.element "suggestion" [("mode", "addition")]
                [.text "by ".toList, .element "hi" [] [.text "R.".toList]]].take 0 ++
              [.element "persName" [] [.text "by ".toList,
                .element "hi" [] [.text "R.".toList]]] ++
              [XNode.element "suggestion" [("mode", "addition")]
                [.text "by ".toList, .element "hi" [] [.text "R.".toList]]].drop 1))⟩ :=
  claim_C5_accept_addition ⟨[.element "p" [] [.element "suggestion" [("mode", "addition")]
      [.text "by ".toList, .element "hi" [] [.text "R.".toList]]]]⟩ [0] 0
    [.element "suggestion" [("mode", "addition")]
      [.text "by ".toList, .element "hi" [] [.text "R.".toList]]]
    [("mode", "addition")] [.text "by ".toList, .element "hi" [] [.text "R.".toList]]
    "addition" "persName" (by decide) (by decide) (Or.inl rfl)

/-- C6 (amended): accepting a `deletion` suggestion first replaces every
*direct child* of the suggestion that is an element with lower-cased tag in
the reserved entity set (`persname`/`placename`/`name`) by that element's
own *children* (equal to its text content only when it contains nothing but
text — the original claim's "its own text content" is refuted on nested
markup by `claim_C6_counterexample`), then splices the suggestion's
remaining children into the parent in its place and normalizes the parent;
in particular accepting `<suggestion mode="deletion"><persName>The</persName>
</suggestion>` leaves the plain text node `"The"` with no surviving entity
element. -/
theorem claim_C6_accept_deletion (d : XDoc) (base : List Nat) (i : Nat) (k : List XNode)
    (a : List (String × String)) (cc : List XNode) (ty : String)
    (hk : containerAt d.children base = some k)
    (hi : k.get? i = some (.element "suggestion" a cc)) :
    acceptSuggestion d (base ++ [i]) "deletion" ty =
      ⟨replaceContainerAt d.children base
        (normalizeChildren (k.take i ++ unwrapEntities cc ++ k.drop (i + 1)))⟩
    ∧ acceptSuggestion ⟨[.element "p" [] [.element "suggestion" [("mode", "deletion")]
        [.element "persName" [] [.text "The".toList]]]]⟩ [0, 0] "deletion" "persName"
      = ⟨[.element "p" [] [.text "The".toList]]⟩ := by
  constructor
  · have hres : resolveList d.children (base ++ [i]) = some (.element "suggestion" a cc) :=
      (resolveList_container hk i).trans hi
    have hnode := getNodeByPath_of_resolveList (by simp) hres
    unfold acceptSuggestion
    rw [hnode]
    show (if "suggestion" = "suggestion" then
        if "deletion" = "deletion" then
          (⟨editAtPathNorm (fun _ => unwrapEntities cc) d.children (base ++ [i])⟩ : XDoc)
        else ⟨editAtPathNorm (fun _ => [.element ty [] cc]) d.children (base ++ [i])⟩
      else d) = _
    rw [if_pos rfl, if_pos rfl, editAtPathNorm_eq_replace hk hi]
  · decide

/-- C6 counterexample: an entity child holding nested markup
(`<persName>a<hi>b</hi></persName>`) is replaced by its children — the text
node `"a"` and the intact `<hi>` element — not by its flattened text
content `"ab"` as the claim states. -/
theorem claim_C6_counterexample :
    acceptSuggestion ⟨[.element "p" [] [.element "suggestion" [("mode", "deletion")]
        [.element "persName" [] [.text "a".toList,
          .element "hi" [] [.text "b".toList]]]]]⟩ [0, 0] "deletion" "x"
      = ⟨[.element "p" [] [.text "a".toList, .element "hi" [] [.text "b".toList]]]⟩
    ∧ textContentNode (.element "persName" [] [.text "a".toList,
        .element "hi" [] [.text "b".toList]]) = "ab".toList
    ∧ (⟨[.element "p" [] [.text "a".toList, .element "hi" [] [.text "b".toList]]]⟩ : XDoc)
      ≠ ⟨[.element "p" [] [.text "ab".toList]]⟩ := by
  refine ⟨by decide, by decide, ?_⟩
  intro h
  exact absurd (congrArg XDoc.children h) (by decide)

/-- C6 witness: the general deletion clause applied to the concrete
`<suggestion mode="deletion"><persName>The</persName></suggestion>`. -/
theorem claim_C6_accept_deletion_witness :
    acceptSuggestion ⟨[.element "p" [] [.element "suggestion" [("mode", "deletion")]
        [.element "persName" [] [.text "The".toList]]]]⟩ ([0] ++ [0]) "deletion" "x"
      = ⟨replaceContainerAt [.element "p" [] [.element "suggestion" [("mode", "deletion")]
          [.element "persName" [] [.text "The".toList]]]] [0]
          (normalizeChildren
            ([XNode.element "suggestion" [("mode", "deletion")]
                [.element "persName" [] [.text "The".toList]]].take 0 ++
              unwrapEntities [.element "persName" [] [.text "The".toList]] ++
              [XNode.element "suggestion" [("mode", "deletion")]
                [.element "persName" [] [.text "The".toList]]].drop 1))⟩ :=
  (claim_C6_accept_deletion ⟨[.element "p" [] [.element "suggestion" [("mode", "deletion")]
      [.element "persName" [] [.text "The".toList]]]]⟩ [0] 0
    [.element "suggestion" [("mode", "deletion")]
      [.element "persName" [] [.text "The".toList]]]
    [("mode", "deletion")] [.element "persName" [] [.text "The".toList]] "x"
    (by decide) (by decide)).1

/-- Whether a node is an element whose tag is exactly the suggestion tag. -/
def isTopSuggestion : XNode → Bool
  | .element t _ _ => t = "suggestion"
  | .text _ => false

/-- No member of the sibling list is a suggestion-tagged element. -/
def noTopSuggestion (l : List XNode) : Bool :=
  l.all (fun x => !isTopSuggestion x)

theorem isTopSuggestion_normalizeNode (n : XNode) :
    isTopSuggestion (normalizeNode n) = isTopSuggestion n := by
  cases n <;> rfl

theorem noSugg_mergeStep {n : XNode} {l : List XNode}
    (hn : isTopSuggestion n = false)
    (hl : ∀ x ∈ l, isTopSuggestion x = false) :
    ∀ y ∈ mergeStep n l, isTopSuggestion y = false := by
  intro y hy
  cases n with
  | element t a cs =>
    rw [mergeStep_elem] at hy
    rcases List.mem_cons.mp hy with rfl | hmem
    · exact hn
    · exact hl y hmem
  | text s =>
    by_cases hs : s = []
    · simp only [mergeStep, if_pos hs] at hy
      exact hl y hy
    · simp only [mergeStep, if_neg hs] at hy
      cases l with
      | nil =>
        rcases List.mem_singleton.mp hy with rfl
        rfl
      | cons x rest =>
        cases x with
        | text s2 =>
          rcases List.mem_cons.mp hy with rfl | hmem
          · rfl
          · exact hl y (List.mem_cons_of_mem _ hmem)
        | element t2 a2 cs2 =>
          rcases List.mem_cons.mp hy with rfl | hmem
          · rfl
          · exact hl y hmem

theorem noSugg_normalizeChildren {l : List XNode}
    (hl : ∀ x ∈ l, isTopSuggestion x = false) :
    ∀ y ∈ normalizeChildren l, isTopSuggestion y = false := by
  induction l with
  | nil => intro y hy; simp [normalizeChildren] at hy
  | cons c rest ih =>
    rw [normalizeChildren_cons]
    refine noSugg_mergeStep ?_ ?_
    · rw [isTopSuggestion_normalizeNode]
      exact hl c (List.mem_cons_self c rest)
    · exact ih (fun x hx => hl x (List.mem_cons_of_mem _ hx))

theorem noTopSuggestion_forall {l : List XNode} (h : noTopSuggestion l = true) :
    ∀ x ∈ l, isTopSuggestion x = false := by
  intro x hx
  have := List.all_eq_true.mp h x hx
  simpa using this

/-- C7 (amended): resolving a suggestion is terminal *for that suggestion*:
after `acceptSuggestion` (any mode, with a payload type other than the
suggestion tag) or `declineSuggestion` at a path resolving to a
suggestion-tagged element, re-resolving the exact same path never yields a
suggestion-tagged node — provided no *other* suggestion-tagged element sits
among the parent's remaining children or among the nodes spliced in
(otherwise a former later sibling or an inner suggestion can shift into the
same path, as `claim_C7_counterexample` shows, refuting the original
unconditional claim). -/
theorem claim_C7_terminal (d : XDoc) (base : List Nat) (i : Nat) (k : List XNode)
    (a : List (String × String)) (cc : List XNode) (mode ty : String)
    (hk : containerAt d.children base = some k)
    (hi : k.get? i = some (.element "suggestion" a cc))
    (h1 : noTopSuggestion (k.take i) = true)
    (h2 : noTopSuggestion (k.drop (i + 1)) = true)
    (h3 : noTopSuggestion cc = true)
    (h4 : noTopSuggestion (unwrapEntities cc) = true)
    (hty : ty ≠ "suggestion") :
    (∀ n, getNodeByPath (acceptSuggestion d (base ++ [i]) mode ty) (base ++ [i])
        = .node n → isTopSuggestion n = false)
    ∧ (∀ n, getNodeByPath (declineSuggestion d (base ++ [i])) (base ++ [i])
        = .node n → isTopSuggestion n = false) := by
  have hres : resolveList d.children (base ++ [i]) = some (.element "suggestion" a cc) :=
    (resolveList_container hk i).trans hi
  have hnode := getNodeByPath_of_resolveList (p := base ++ [i]) (by simp) hres
  have main : ∀ repl : List XNode, noTopSuggestion repl = true →
      ∀ n, getNodeByPath ⟨replaceContainerAt d.children base
          (normalizeChildren (k.take i ++ repl ++ k.drop (i + 1)))⟩ (base ++ [i])
        = .node n → isTopSuggestion n = false := by
    intro repl hrepl n hn
    have hk2 : containerAt (replaceContainerAt d.children base
        (normalizeChildren (k.take i ++ repl ++ k.drop (i + 1)))) base
        = some (normalizeChildren (k.take i ++ repl ++ k.drop (i + 1))) :=
      containerAt_replace hk _
    have hres2 := resolveList_container hk2 i
    have hsome := getNodeByPath_node_elim (p := base ++ [i]) (by simp) hn
    rw [hres2] at hsome
    have hmem : n ∈ normalizeChildren (k.take i ++ repl ++ k.drop (i + 1)) :=
      List.get?_mem hsome
    refine noSugg_normalizeChildren ?_ n hmem
    intro x hx
    rcases List.mem_append.mp hx with hx' | hsufx
    · rcases List.mem_append.mp hx' with hprex | hreplx
      · exact noTopSuggestion_forall h1 x hprex
      · exact noTopSuggestion_forall hrepl x hreplx
    · exact noTopSuggestion_forall h2 x hsufx
  constructor
  · intro n hn
    unfold acceptSuggestion at hn
    rw [hnode] at hn
    replace hn : getNodeByPath
        (if "suggestion" = "suggestion" then
          if mode = "deletion" then
            (⟨editAtPathNorm (fun _ => unwrapEntities cc) d.children (base ++ [i])⟩ : XDoc)
          else ⟨editAtPathNorm (fun _ => [.element ty [] cc]) d.children (base ++ [i])⟩
        else d) (base ++ [i]) = .node n := hn
    rw [if_pos rfl] at hn
    by_cases hdel : mode = "deletion"
    · rw [if_pos hdel] at hn
      have hn2 : getNodeByPath ⟨replaceContainerAt d.children base
          (normalizeChildren (k.take i ++ unwrapEntities cc ++ k.drop (i + 1)))⟩
          (base ++ [i]) = .node n := by
        rw [← editAtPathNorm_eq_replace hk hi (fun _ => unwrapEntities cc)]
        exact hn
      exact main (unwrapEntities cc) h4 n hn2
    · rw [if_neg hdel] at hn
      have hn2 : getNodeByPath ⟨replaceContainerAt d.children base
          (normalizeChildren (k.take i ++ [.element ty [] cc] ++ k.drop (i + 1)))⟩
          (base ++ [i]) = .node n := by
        rw [← editAtPathNorm_eq_replace hk hi (fun _ => [.element ty [] cc])]
        exact hn
      refine main [.element ty [] cc] ?_ n hn2
      simp [noTopSuggestion, isTopSuggestion, hty]
  · intro n hn
    unfold declineSuggestion unwrapTag at hn
    rw [hnode] at hn
    replace hn : getNodeByPath
        (⟨editAtPathNorm (fun m => m.childNodes) d.children (base ++ [i])⟩ : XDoc)
        (base ++ [i]) = .node n := hn
    have hn2 : getNodeByPath ⟨replaceContainerAt d.children base
        (normalizeChildren (k.take i ++ cc ++ k.drop (i + 1)))⟩
        (base ++ [i]) = .node n := by
      have heq := editAtPathNorm_eq_replace hk hi (fun m => m.childNodes)
      simp only [XNode.childNodes] at heq
      rw [← heq]
      exact hn
    exact main cc h3 n hn2

/-- C7 counterexample: declining an empty suggestion whose next sibling is
another suggestion shifts that sibling into the vacated index, so the exact
same path resolves to a suggestion-tagged element again. -/
theorem claim_C7_counterexample :
    getNodeByPath ⟨[.element "p" [] [.element "suggestion" [] [],
        .element "suggestion" [] [.text "x".toList]]]⟩ [0, 0]
      = .node (.element "suggestion" [] [])
    ∧ getNodeByPath (declineSuggestion ⟨[.element "p" []
        [.element "suggestion" [] [],
          .element "suggestion" [] [.text "x".toList]]]⟩ [0, 0]) [0, 0]
      = .node (.element "suggestion" [] [.text "x".toList])
    ∧ isTopSuggestion (.element "suggestion" [] [.text "x".toList]) = true := by
  refine ⟨by decide, by decide, by decide⟩

/-- C7 witness: a lone suggestion between non-suggestion siblings. -/
theorem claim_C7_terminal_witness :
    (∀ n, getNodeByPath (acceptSuggestion ⟨[.element "p" [] [.text "t".toList,
        .element "suggestion" [] [.text "x".toList]]]⟩ ([0] ++ [1]) "addition" "persName")
        ([0] ++ [1]) = .node n → isTopSuggestion n = false)
    ∧ (∀ n, getNodeByPath (declineSuggestion ⟨[.element "p" [] [.text "t".toList,
        .element "suggestion" [] [.text "x".toList]]]⟩ ([0] ++ [1]))
        ([0] ++ [1]) = .node n → isTopSuggestion n = false) :=
  claim_C7_terminal ⟨[.element "p" [] [.text "t".toList,
      .element "suggestion" [] [.text "x".toList]]]⟩ [0] 1
    [.text "t".toList, .element "suggestion" [] [.text "x".toList]]
    [] [.text "x".toList] "addition" "persName"
    (by decide) (by decide) (by decide) (by decide) (by decide) (by decide)
    (by decide)

mutual

/-- Whether a suggestion-tagged element occurs anywhere in the subtree
(the node itself included). -/
def hasSuggestionNode : XNode → Bool
  | .text _ => false
  | .element t _ cs => t = "suggestion" || hasSuggestionList cs

/-- Whether a suggestion-tagged element occurs anywhere under a sibling
list. -/
def hasSuggestionList : List XNode → Bool
  | [] => false
  | c :: rest => hasSuggestionNode c || hasSuggestionList rest

end

/-- Per-suggestion side condition for the amended C8: a suggestion whose
mode is not `deletion` must not carry a `type` attribute that resolves (via
`getAttribute('type') || 'name'`) to the suggestion tag itself, since the
replacement element it produces would again be suggestion-tagged. -/
def suggTypeOk (t : String) (a : List (String × String)) : Bool :=
  if t = "suggestion" then
    if getAttr a "mode" = some "deletion" then true
    else !(falsyOr (getAttr a "type") "name" = ("suggestion" : String))
  else true

mutual

/-- The amended-C8 side condition over a whole subtree. -/
def goodTypesNode : XNode → Bool
  | .text _ => true
  | .element t a cs => suggTypeOk t a && goodTypesList cs

/-- The amended-C8 side condition over a sibling list. -/
def goodTypesList : List XNode → Bool
  | [] => true
  | c :: rest => goodTypesNode c && goodTypesList rest

end

theorem hasSuggestionList_cons (c : XNode) (rest : List XNode) :
    hasSuggestionList (c :: rest) = (hasSuggestionNode c || hasSuggestionList rest) :=
  rfl

theorem hasSuggestionList_append (xs ys : List XNode) :
    hasSuggestionList (xs ++ ys) = (hasSuggestionList xs || hasSuggestionList ys) := by
  induction xs with
  | nil => rfl
  | cons c rest ih =>
    rw [List.cons_append, hasSuggestionList_cons, ih, hasSuggestionList_cons,
      Bool.or_assoc]

theorem hasSuggestionList_singleton (x : XNode) :
    hasSuggestionList [x] = hasSuggestionNode x := by
  rw [hasSuggestionList_cons]
  show (hasSuggestionNode x || false) = _
  rw [Bool.or_false]

theorem hasSuggestionList_unwrapEntities {l : List XNode}
    (h : hasSuggestionList l = false) :
    hasSuggestionList (unwrapEntities l) = false := by
  induction l with
  | nil => rfl
  | cons c rest ih =>
    rw [hasSuggestionList_cons, Bool.or_eq_false_iff] at h
    unfold unwrapEntities at ih ⊢
    rw [List.flatMap_cons, hasSuggestionList_append, ih h.2, Bool.or_false]
    cases c with
    | text s => exact h.1
    | element t a cs =>
      show hasSuggestionList
        (if entityTags.contains (toLowerAscii t) then cs else [.element t a cs]) = false
      by_cases he : entityTags.contains (toLowerAscii t)
      · rw [if_pos he]
        have := h.1
        unfold hasSuggestionNode at this
        rw [Bool.or_eq_false_iff] at this
        exact this.2
      · rw [if_neg he, hasSuggestionList_cons, h.1]
        rfl

mutual

/-- Bottom-up resolution leaves no suggestion-tagged node, given the
amended type side condition, node form. -/
theorem resolveAllNode_noSugg : ∀ n : XNode, goodTypesNode n = true →
    hasSuggestionList (resolveAllNode n) = false
  | .text s, _ => rfl
  | .element t a cs, h => by
    unfold goodTypesNode at h
    rw [Bool.and_eq_true] at h
    have hcs : hasSuggestionList (resolveAllList cs) = false :=
      resolveAllList_noSugg cs h.2
    unfold resolveAllNode
    by_cases ht : t = "suggestion"
    · rw [if_pos ht]
      by_cases hm : getAttr a "mode" = some "deletion"
      · rw [if_pos hm]
        exact hasSuggestionList_unwrapEntities hcs
      · rw [if_neg hm]
        have hty : (falsyOr (getAttr a "type") "name" = ("suggestion" : String)) = False := by
          have := h.1
          unfold suggTypeOk at this
          rw [if_pos ht, if_neg hm] at this
          simp only [Bool.not_eq_true', decide_eq_false_iff_not] at this
          simp [this]
        rw [hasSuggestionList_singleton]
        unfold hasSuggestionNode
        rw [hcs]
        simp [hty]
    · rw [if_neg ht, hasSuggestionList_singleton]
      unfold hasSuggestionNode
      rw [hcs]
      simp [ht]

/-- Bottom-up resolution leaves no suggestion-tagged node, list form. -/
theorem resolveAllList_noSugg : ∀ l : List XNode, goodTypesList l = true →
    hasSuggestionList (resolveAllList l) = false
  | [], _ => rfl
  | c :: rest, h => by
    unfold goodTypesList at h
    rw [Bool.and_eq_true] at h
    unfold resolveAllList
    rw [hasSuggestionList_append, resolveAllNode_noSugg c h.1,
      resolveAllList_noSugg rest h.2]
    rfl

end

/-- C8 (amended): `acceptAllSuggestionsInNode` resolves every suggestion
strictly under the scope element with the same per-suggestion accept logic —
`deletion` unwraps entity children and splices the suggestion away, any
other mode replaces it by an element named by its resolved `type` attribute
(`'name'` when absent or empty); the snapshot is processed in reverse
document order, which is exactly the bottom-up rewrite `resolveAllList`.
Afterwards zero suggestion-tagged nodes remain under the scope — *provided*
no non-deletion suggestion's resolved `type` attribute is itself the
suggestion tag; `claim_C8_counterexample` refutes the unconditional
original. The conjunct evaluates the spec's three-sibling paragraph. -/
theorem claim_C8_accept_all (t : String) (a : List (String × String))
    (cs : List XNode) (h : goodTypesList cs = true) :
    hasSuggestionList ((acceptAllSuggestionsInNode (.element t a cs)).childNodes) = false
    ∧ acceptAllSuggestionsInNode (.element "p" []
        [.element "suggestion" [("mode", "addition"), ("type", "persName")]
          [.text "a".toList],
         .element "suggestion" [("mode", "deletion")] [.text "b".toList],
         .element "suggestion" [] [.text "c".toList]])
      = .element "p" [] [.element "persName" [] [.text "a".toList], .text "b".toList,
          .element "name" [] [.text "c".toList]] := by
  constructor
  · show hasSuggestionList (resolveAllList cs) = false
    exact resolveAllList_noSugg cs h
  · decide

/-- C8 counterexample: a suggestion carrying `type="suggestion"` with a
non-deletion mode is replaced by a fresh element that is again
suggestion-tagged, so a suggestion-tagged node survives accept-all. -/
theorem claim_C8_counterexample :
    acceptAllSuggestionsInNode (.element "p" []
        [.element "suggestion" [("mode", "addition"), ("type", "suggestion")]
          [.text "x".toList]])
      = .element "p" [] [.element "suggestion" [] [.text "x".toList]]
    ∧ hasSuggestionList ((acceptAllSuggestionsInNode (.element "p" []
        [.element "suggestion" [("mode", "addition"), ("type", "suggestion")]
          [.text "x".toList]])).childNodes) = true := by
  refine ⟨by decide, by decide⟩

/-- C8 witness: the spec's paragraph with three sibling suggestions
satisfies the type side condition, and accept-all removes all of them. -/
theorem claim_C8_accept_all_witness :
    hasSuggestionList ((acceptAllSuggestionsInNode (.element "p" []
        [.element "suggestion" [("mode", "addition"), ("type", "persName")]
          [.text "a".toList],
         .element "suggestion" [("mode", "deletion")] [.text "b".toList],
         .element "suggestion" [] [.text "c".toList]])).childNodes) = false :=
  (claim_C8_accept_all "p" []
    [.element "suggestion" [("mode", "addition"), ("type", "persName")]
      [.text "a".toList],
     .element "suggestion" [("mode", "deletion")] [.text "b".toList],
     .element "suggestion" [] [.text "c".toList]] (by decide)).1

/-- The concatenated text of the pieces `wrapSelectionInTag` produces is
`substring(0,s) ++ substring(s,e) ++ substring(e)`, for any offsets. -/
theorem textPieces_textContent (c : List Char) (s e : Int) (g : String) :
    textContentList (textPieces c s e g)
      = jsSubstring c 0 s ++ (jsSubstring c s e ++ jsSubstringFrom c e) := by
  unfold textPieces
  have htc : ∀ x : List Char,
      textContentList (if x = [] then [] else [.text x]) = x := by
    intro x
    by_cases hx : x = []
    · rw [if_pos hx, hx]; rfl
    · rw [if_neg hx]; show x ++ [] = x; rw [List.append_nil]
  have happ : ∀ xs ys : List XNode,
      textContentList (xs ++ ys) = textContentList xs ++ textContentList ys := by
    intro xs ys
    induction xs with
    | nil => rfl
    | cons z zs ih =>
      show textContentNode z ++ textContentList (zs ++ ys) = _
      rw [ih]
      show _ = (textContentNode z ++ textContentList zs) ++ textContentList ys
      rw [List.append_assoc]
  rw [happ, happ, htc, htc]
  have hmidtc : textContentList [XNode.element g []
      (if jsSubstring c s e = [] then [] else [.text (jsSubstring c s e)])]
      = jsSubstring c s e := by
    show textContentList (if jsSubstring c s e = [] then [] else [.text (jsSubstring c s e)])
      ++ [] = _
    rw [List.append_nil, htc]
  rw [hmidtc, List.append_assoc]

theorem take_splice_drop (c : List Char) {u v : Nat} (huv : u ≤ v) :
    c.take u ++ ((c.take v).drop u ++ c.drop v) = c := by
  have h1 : (c.take v).take u = c.take u := by
    rw [List.take_take, Nat.min_eq_left huv]
  calc c.take u ++ ((c.take v).drop u ++ c.drop v)
      = ((c.take v).take u ++ (c.take v).drop u) ++ c.drop v := by
        rw [h1, List.append_assoc]
    _ = c.take v ++ c.drop v := by rw [List.take_append_drop]
    _ = c := List.take_append_drop v c

/-- C10: `wrapSelectionInTag`'s splitting is total over all integer offsets
because `substring` clamps both offsets into `[0, length]` (never throwing);
whenever `0 ≤ startOffset ≤ endOffset` — even when `endOffset` exceeds the
length — the concatenated text of the produced pieces is exactly the
original content, so no characters are lost or duplicated; and when
`startOffset > endOffset` the selected segment is computed with the bounds
swapped (`substring` is symmetric in its arguments), so for
`0 ≤ e ≤ s ≤ length` the produced text is
`t[0,s) ++ t[e,s) ++ t[e,end)` — no longer the original text split in
order (the range `[e,s)` is duplicated). -/
theorem claim_C10_offset_totality :
    (∀ (c : List Char) (s e : Int) (g : String), 0 ≤ s → s ≤ e →
        textContentList (textPieces c s e g) = c)
    ∧ (∀ (c : List Char) (s e : Int), jsSubstring c s e = jsSubstring c e s)
    ∧ (∀ (c : List Char) (s e : Int) (g : String), 0 ≤ e → e ≤ s →
        s ≤ (c.length : Int) →
        textContentList (textPieces c s e g)
          = c.take s.toNat ++ ((c.take s.toNat).drop e.toNat ++ c.drop e.toNat)) := by
  refine ⟨?_, ?_, ?_⟩
  · intro c s e g hs hse
    rw [textPieces_textContent]
    have hu : clampIdx c 0 = 0 := clampIdx_zero c
    have huv : clampIdx c s ≤ clampIdx c e := by
      unfold clampIdx
      exact Int.toNat_le_toNat (max_le_max (le_refl 0) (min_le_min hse (le_refl _)))
    have h0s : clampIdx c 0 ≤ clampIdx c s := by
      rw [hu]; exact Nat.zero_le _
    unfold jsSubstring jsSubstringFrom
    rw [hu, Nat.max_eq_right (Nat.zero_le _), Nat.min_eq_left (Nat.zero_le _),
      List.drop_zero, Nat.max_eq_right huv, Nat.min_eq_left huv]
    exact take_splice_drop c huv
  · intro c s e
    unfold jsSubstring
    rw [Nat.max_comm, Nat.min_comm]
  · intro c s e g he0 hes hs
    rw [textPieces_textContent]
    have hcs : clampIdx c s = s.toNat := clampIdx_of_range (he0.trans hes) hs
    have hce : clampIdx c e = e.toNat := clampIdx_of_range he0 (hes.trans hs)
    have hvu : e.toNat ≤ s.toNat := Int.toNat_le_toNat hes
    unfold jsSubstring jsSubstringFrom
    rw [clampIdx_zero, hcs, hce, Nat.max_eq_right (Nat.zero_le _),
      Nat.min_eq_left (Nat.zero_le _), List.drop_zero,
      Nat.max_eq_left hvu, Nat.min_eq_right hvu]

/-- C10 witness: in-range, over-length and swapped offsets on `"abcd"`. -/
theorem claim_C10_offset_totality_witness :
    textContentList (textPieces "abcd".toList 1 99 "persName") = "abcd".toList
    ∧ jsSubstring "abcd".toList 3 1 = jsSubstring "abcd".toList 1 3
    ∧ textContentList (textPieces "abcd".toList 3 1 "persName")
      = "abcd".toList.take 3 ++ (("abcd".toList.take 3).drop 1 ++ "abcd".toList.drop 1) := by
  refine ⟨?_, ?_, ?_⟩
  · exact claim_C10_offset_totality.1 "abcd".toList 1 99 "persName" (by decide) (by decide)
  · exact claim_C10_offset_totality.2.1 "abcd".toList 3 1
  · have h := claim_C10_offset_totality.2.2 "abcd".toList 3 1 "persName"
      (by decide) (by decide) (by decide)
    exact h.trans (by decide)

/-- Whether a node is an element whose lower-cased tag is the page-boundary
container tag `div`. -/
def isDiv : XNode → Bool
  | .element t _ _ => toLowerAscii t = "div"
  | .text _ => false

/-- The attribute list of a node (empty for text nodes). -/
def XNode.attrsOf : XNode → List (String × String)
  | .element _ a _ => a
  | .text _ => []

mutual

/-- Accumulator-free page traversal: the `(path, node)` pairs `getPages`
emits, in order, from one node. -/
def divPagesNode : XNode → List Nat → List (List Nat × XNode)
  | .text _, _ => []
  | .element t a cs, path =>
    if toLowerAscii t = "div" then [(path, .element t a cs)]
    else divPagesList cs 0 path

/-- Accumulator-free page traversal over a child list from index `i`. -/
def divPagesList : List XNode → Nat → List Nat → List (List Nat × XNode)
  | [], _, _ => []
  | c :: rest, i, path => divPagesNode c (path ++ [i]) ++ divPagesList rest (i + 1) path

end

/-- Attach ids to the emitted `(path, node)` pairs, numbering fallback names
from `j`. -/
def withIds : List (List Nat × XNode) → Nat → List PageInfo
  | [], _ => []
  | (p, n) :: rest, j => ⟨pageId n.attrsOf j, p, n⟩ :: withIds rest (j + 1)

theorem withIds_length (l : List (List Nat × XNode)) (j : Nat) :
    (withIds l j).length = l.length := by
  induction l generalizing j with
  | nil => rfl
  | cons pr rest ih =>
    cases pr with
    | mk p n =>
      show (withIds rest (j + 1)).length + 1 = rest.length + 1
      rw [ih]

theorem withIds_append (xs ys : List (List Nat × XNode)) (j : Nat) :
    withIds (xs ++ ys) j = withIds xs j ++ withIds ys (j + xs.length) := by
  induction xs generalizing j with
  | nil => simp [withIds]
  | cons pr rest ih =>
    cases pr with
    | mk p n =>
      show (⟨pageId n.attrsOf j, p, n⟩ : PageInfo) :: withIds (rest ++ ys) (j + 1)
        = ⟨pageId n.attrsOf j, p, n⟩ :: (withIds rest (j + 1) ++ withIds ys (j + (rest.length + 1)))
      rw [ih]
      have : j + 1 + rest.length = j + (rest.length + 1) := by omega
      rw [this]

mutual

/-- The source's accumulating traversal equals appending the id-tagged
accumulator-free traversal, node form. -/
theorem pagesNode_eq : ∀ (n : XNode) (path : List Nat) (acc : List PageInfo),
    pagesNode n path acc = acc ++ withIds (divPagesNode n path) acc.length
  | .text _, path, acc => by
    show acc = acc ++ withIds [] acc.length
    rw [withIds, List.append_nil]
  | .element t a cs, path, acc => by
    unfold pagesNode divPagesNode
    by_cases h : toLowerAscii t = "div"
    · rw [if_pos h, if_pos h]
      rfl
    · rw [if_neg h, if_neg h]
      exact pagesList_eq cs 0 path acc

/-- The source's accumulating traversal equals appending the id-tagged
accumulator-free traversal, list form. -/
theorem pagesList_eq : ∀ (cs : List XNode) (i : Nat) (path : List Nat)
    (acc : List PageInfo),
    pagesList cs i path acc = acc ++ withIds (divPagesList cs i path) acc.length
  | [], i, path, acc => by
    show acc = acc ++ withIds [] acc.length
    rw [withIds, List.append_nil]
  | c :: rest, i, path, acc => by
    unfold pagesList divPagesList
    rw [pagesList_eq rest (i + 1) path (pagesNode c (path ++ [i]) acc),
      pagesNode_eq c (path ++ [i]) acc, withIds_append, List.append_assoc,
      List.length_append, withIds_length]

end

theorem getPages_eq (d : XDoc) :
    getPages d = withIds (divPagesList d.children 0 []) 0 := by
  unfold getPages
  rw [pagesList_eq]
  rfl

theorem divPagesList_mem_decomp : ∀ (cs : List XNode) (i : Nat) (path0 : List Nat)
    (x : List Nat × XNode), x ∈ divPagesList cs i path0 →
    ∃ j c, cs.get? j = some c ∧ x ∈ divPagesNode c (path0 ++ [i + j])
  | [], _, _, _, hx => absurd hx (by simp [divPagesList])
  | c :: rest, i, path0, x, hx => by
    unfold divPagesList at hx
    rcases List.mem_append.mp hx with hl | hr
    · exact ⟨0, c, rfl, by simpa using hl⟩
    · obtain ⟨j', c', hg, hmem⟩ := divPagesList_mem_decomp rest (i + 1) path0 x hr
      refine ⟨j' + 1, c', hg, ?_⟩
      have : i + (j' + 1) = i + 1 + j' := by omega
      rw [this]
      exact hmem

theorem divPagesList_mem_intro : ∀ (cs : List XNode) (i j : Nat) (path0 : List Nat)
    (c : XNode) (x : List Nat × XNode), cs.get? j = some c →
    x ∈ divPagesNode c (path0 ++ [i + j]) → x ∈ divPagesList cs i path0
  | [], _, j, _, _, _, hg, _ => absurd hg (by simp)
  | c0 :: rest, i, 0, path0, c, x, hg, hmem => by
    cases hg
    unfold divPagesList
    exact List.mem_append.mpr (Or.inl (by simpa using hmem))
  | c0 :: rest, i, j + 1, path0, c, x, hg, hmem => by
    unfold divPagesList
    refine List.mem_append.mpr (Or.inr ?_)
    refine divPagesList_mem_intro rest (i + 1) j path0 c x hg ?_
    have : i + 1 + j = i + (j + 1) := by omega
    rw [this]
    exact hmem

/-- Soundness of the page traversal, node form: every emitted pair extends
the entry path by a relative path that resolves to the emitted div node,
with every strictly shorter relative prefix resolving to a non-div node. -/
theorem divPagesNode_sound : ∀ (n : XNode) (path0 : List Nat)
    (x : List Nat × XNode), x ∈ divPagesNode n path0 →
    ∃ rel, x.1 = path0 ++ rel ∧ descendPath n rel = some x.2 ∧ isDiv x.2 = true ∧
      ∀ jl, jl < rel.length → ∀ m, descendPath n (rel.take jl) = some m →
        isDiv m = false
  | .text _, _, _, hx => absurd hx (by simp [divPagesNode])
  | .element t a cs, path0, x, hx => by
    unfold divPagesNode at hx
    by_cases h : toLowerAscii t = "div"
    · rw [if_pos h] at hx
      rcases List.mem_singleton.mp hx with rfl
      refine ⟨[], by simp, rfl, by simp [isDiv, h], ?_⟩
      intro jl hjl
      exact absurd hjl (by simp)
    · rw [if_neg h] at hx
      obtain ⟨j, c, hg, hmem⟩ := divPagesList_mem_decomp cs 0 path0 x hx
      obtain ⟨rel', hp, hdesc, hdiv, hanc⟩ := divPagesNode_sound c (path0 ++ [0 + j]) x hmem
      have hj : (0 : Nat) + j = j := by omega
      rw [hj] at hp
      refine ⟨j :: rel', by rw [hp, ← List.append_cons], ?_, hdiv, ?_⟩
      · show (match (XNode.element t a cs).childNodes.get? j with
          | some c2 => descendPath c2 rel'
          | none => none) = some x.2
        show (match cs.get? j with
          | some c2 => descendPath c2 rel'
          | none => none) = some x.2
        rw [hg]
        exact hdesc
      · intro jl hjl m hm
        cases jl with
        | zero =>
          have : m = XNode.element t a cs := by
            have hmm : some (XNode.element t a cs) = some m := hm
            exact (Option.some.inj hmm).symm
          rw [this]
          simp [isDiv, h]
        | succ jl' =>
          have hst : (j :: rel').take (jl' + 1) = j :: rel'.take jl' := rfl
          rw [hst] at hm
          replace hm : (match cs.get? j with
              | some c2 => descendPath c2 (rel'.take jl')
              | none => none) = some m := hm
          rw [hg] at hm
          exact hanc jl' (by simpa using hjl) m hm
termination_by n _ _ _ => sizeOf n
decreasing_by
  have hc : c ∈ cs := List.get?_mem hg
  have h1 := List.sizeOf_lt_of_mem hc
  simp only [XNode.element.sizeOf_spec]
  omega

theorem divPagesNode_complete : ∀ (n : XNode) (path0 rel : List Nat) (m : XNode),
    descendPath n rel = some m → isDiv m = true →
    (∀ jl, jl < rel.length → ∀ x, descendPath n (rel.take jl) = some x →
      isDiv x = false) →
    (path0 ++ rel, m) ∈ divPagesNode n path0
  | n, path0, [], m, hdesc, hdiv, _ => by
    have hm : n = m := Option.some.inj hdesc
    subst hm
    cases n with
    | text s => simp [isDiv] at hdiv
    | element t a cs =>
      unfold divPagesNode
      rw [if_pos (by simpa [isDiv] using hdiv)]
      simp
  | n, path0, j :: rel', m, hdesc, hdiv, hanc => by
    have hself : isDiv n = false := by
      refine hanc 0 (by simp) n ?_
      rfl
    cases n with
    | text s =>
      replace hdesc : (match ([] : List XNode).get? j with
          | some c2 => descendPath c2 rel'
          | none => none) = some m := hdesc
      simp at hdesc
    | element t a cs =>
      replace hdesc : (match cs.get? j with
          | some c2 => descendPath c2 rel'
          | none => none) = some m := hdesc
      cases hg : cs.get? j with
      | none => rw [hg] at hdesc; exact absurd hdesc (by simp)
      | some c =>
        rw [hg] at hdesc
        have hrec : ((path0 ++ [j]) ++ rel', m) ∈ divPagesNode c (path0 ++ [j]) := by
          refine divPagesNode_complete c (path0 ++ [j]) rel' m hdesc hdiv ?_
          intro jl hjl x hx
          have hst : (j :: rel').take (jl + 1) = j :: rel'.take jl := rfl
          refine hanc (jl + 1) (by simpa using Nat.succ_lt_succ hjl) x ?_
          rw [hst]
          show (match cs.get? j with
            | some c2 => descendPath c2 (rel'.take jl)
            | none => none) = some x
          rw [hg]
          exact hx
        have hrec2 : (path0 ++ j :: rel', m) ∈ divPagesNode c (path0 ++ [j]) := by
          rw [← List.append_cons] at hrec
          exact hrec
        unfold divPagesNode
        rw [if_neg (by simpa [isDiv] using hself)]
        refine divPagesList_mem_intro cs 0 j path0 c _ hg ?_
        have hj0 : (0 : Nat) + j = j := by omega
        rw [hj0]
        exact hrec2

/-- Strict lexicographic order on paths: document order for the pairwise
non-nested paths the page segmenter emits. -/
def pathLt : List Nat → List Nat → Prop
  | _, [] => False
  | [], _ :: _ => True
  | a :: as, b :: bs => a < b ∨ (a = b ∧ pathLt as bs)

theorem pathLt_extend : ∀ (path0 : List Nat) (j1 j2 : Nat) (r1 r2 : List Nat),
    j1 < j2 → pathLt (path0 ++ j1 :: r1) (path0 ++ j2 :: r2)
  | [], j1, j2, r1, r2, h => Or.inl h
  | a :: p0, j1, j2, r1, r2, h =>
    Or.inr ⟨rfl, pathLt_extend p0 j1 j2 r1 r2 h⟩

theorem divPagesList_mem_shape (cs : List XNode) (i : Nat) (path0 : List Nat)
    (x : List Nat × XNode) (hx : x ∈ divPagesList cs i path0) :
    ∃ j rel, i ≤ j ∧ x.1 = path0 ++ j :: rel := by
  obtain ⟨j', c, hg, hmem⟩ := divPagesList_mem_decomp cs i path0 x hx
  obtain ⟨rel, hp, -, -, -⟩ := divPagesNode_sound c (path0 ++ [i + j']) x hmem
  refine ⟨i + j', rel, by omega, ?_⟩
  rw [hp, ← List.append_cons]

mutual

/-- The emitted pages of one node are in strict document order. -/
theorem divPagesNode_sorted : ∀ (n : XNode) (path0 : List Nat),
    List.Pairwise (fun x y => pathLt x.1 y.1) (divPagesNode n path0)
  | .text _, _ => by
    unfold divPagesNode
    exact List.Pairwise.nil
  | .element t a cs, path0 => by
    unfold divPagesNode
    by_cases h : toLowerAscii t = "div"
    · rw [if_pos h]
      exact List.pairwise_singleton _ _
    · rw [if_neg h]
      exact divPagesList_sorted cs 0 path0

/-- The emitted pages of a child list are in strict document order. -/
theorem divPagesList_sorted : ∀ (cs : List XNode) (i : Nat) (path0 : List Nat),
    List.Pairwise (fun x y => pathLt x.1 y.1) (divPagesList cs i path0)
  | [], _, _ => by
    unfold divPagesList
    exact List.Pairwise.nil
  | c :: rest, i, path0 => by
    unfold divPagesList
    rw [List.pairwise_append]
    refine ⟨divPagesNode_sorted c (path0 ++ [i]), divPagesList_sorted rest (i + 1) path0, ?_⟩
    intro x hx y hy
    obtain ⟨relx, hpx, -, -, -⟩ := divPagesNode_sound c (path0 ++ [i]) x hx
    obtain ⟨jy, rely, hjy, hpy⟩ := divPagesList_mem_shape rest (i + 1) path0 y hy
    rw [hpx, ← List.append_cons, hpy]
    exact pathLt_extend path0 i jy relx rely (by omega)

end

theorem withIds_get? : ∀ (l : List (List Nat × XNode)) (j0 j : Nat),
    (withIds l j0).get? j
      = (l.get? j).map (fun pr => ⟨pageId pr.2.attrsOf (j0 + j), pr.1, pr.2⟩)
  | [], _, _ => by simp [withIds]
  | pr :: rest, j0, 0 => by
    cases pr with
    | mk p n => simp [withIds]
  | pr :: rest, j0, j + 1 => by
    cases pr with
    | mk p n =>
      show (withIds rest (j0 + 1)).get? j = _
      rw [withIds_get? rest (j0 + 1) j]
      have : j0 + 1 + j = j0 + (j + 1) := by omega
      rw [this]
      rfl

theorem withIds_mem : ∀ (l : List (List Nat × XNode)) (j0 : Nat)
    (x : List Nat × XNode), x ∈ l →
    ∃ pg ∈ withIds l j0, pg.path = x.1 ∧ pg.node = x.2
  | [], _, _, hx => absurd hx (by simp)
  | pr :: rest, j0, x, hx => by
    cases pr with
    | mk p n =>
      rcases List.mem_cons.mp hx with rfl | hmem
      · exact ⟨⟨pageId n.attrsOf j0, p, n⟩, List.mem_cons_self _ _, rfl, rfl⟩
      · obtain ⟨pg, hpg, he⟩ := withIds_mem rest (j0 + 1) x hmem
        exact ⟨pg, List.mem_cons_of_mem _ hpg, he⟩

theorem withIds_mem_inv : ∀ (l : List (List Nat × XNode)) (j0 : Nat) (pg : PageInfo),
    pg ∈ withIds l j0 → ∃ x ∈ l, pg.path = x.1 ∧ pg.node = x.2
  | [], _, _, h => absurd h (by simp [withIds])
  | pr :: rest, j0, pg, h => by
    cases pr with
    | mk p n =>
      rcases List.mem_cons.mp h with rfl | hmem
      · exact ⟨(p, n), List.mem_cons_self _ _, rfl, rfl⟩
      · obtain ⟨x, hx, he⟩ := withIds_mem_inv rest (j0 + 1) pg hmem
        exact ⟨x, List.mem_cons_of_mem _ hx, he⟩

theorem withIds_pairwise (l : List (List Nat × XNode)) (j0 : Nat)
    (h : List.Pairwise (fun x y => pathLt x.1 y.1) l) :
    List.Pairwise (fun x y => pathLt x.path y.path) (withIds l j0) := by
  induction l generalizing j0 with
  | nil => exact List.Pairwise.nil
  | cons pr rest ih =>
    cases pr with
    | mk p n =>
      rcases List.pairwise_cons.mp h with ⟨hhead, htail⟩
      refine List.pairwise_cons.mpr ⟨?_, ih (j0 + 1) htail⟩
      intro pg hpg
      obtain ⟨x, hx, hpath, -⟩ := withIds_mem_inv rest (j0 + 1) pg hpg
      show pathLt p pg.path
      rw [hpath]
      exact hhead x hx

theorem divPages_doc_sound (cs : List XNode) (x : List Nat × XNode)
    (hx : x ∈ divPagesList cs 0 []) :
    resolveList cs x.1 = some x.2 ∧ isDiv x.2 = true ∧
      ∀ jl, jl < x.1.length → ∀ m, resolveList cs (x.1.take jl) = some m →
        isDiv m = false := by
  obtain ⟨j, c, hg, hmem⟩ := divPagesList_mem_decomp cs 0 [] x hx
  obtain ⟨rel, hp, hdesc, hdiv, hanc⟩ := divPagesNode_sound c ([] ++ [0 + j]) x hmem
  have hp2 : x.1 = j :: rel := by
    rw [hp]
    simp
  refine ⟨?_, hdiv, ?_⟩
  · rw [hp2]
    show (match cs.get? j with
        | some c2 => descendPath c2 rel
        | none => none) = some x.2
    rw [hg]
    exact hdesc
  · intro jl hjl m hm
    rw [hp2] at hjl hm
    cases jl with
    | zero => exact absurd hm (by simp [resolveList])
    | succ jl' =>
      have hst : (j :: rel).take (jl' + 1) = j :: rel.take jl' := rfl
      rw [hst] at hm
      replace hm : (match cs.get? j with
          | some c2 => descendPath c2 (rel.take jl')
          | none => none) = some m := hm
      rw [hg] at hm
      exact hanc jl' (by simpa using hjl) m hm

theorem divPages_doc_complete (cs : List XNode) (p : List Nat) (m : XNode)
    (hres : resolveList cs p = some m) (hdiv : isDiv m = true)
    (hanc : ∀ jl, jl < p.length → ∀ x, resolveList cs (p.take jl) = some x →
      isDiv x = false) :
    (p, m) ∈ divPagesList cs 0 [] := by
  cases p with
  | nil => exact absurd hres (by simp [resolveList])
  | cons j rel =>
    replace hres : (match cs.get? j with
        | some c => descendPath c rel
        | none => none) = some m := hres
    cases hg : cs.get? j with
    | none => rw [hg] at hres; exact absurd hres (by simp)
    | some c =>
      rw [hg] at hres
      have hcomp : ([j] ++ rel, m) ∈ divPagesNode c [j] := by
        refine divPagesNode_complete c [j] rel m hres hdiv ?_
        intro jl hjl x hx
        refine hanc (jl + 1) (by simpa using Nat.succ_lt_succ hjl) x ?_
        have hst : (j :: rel).take (jl + 1) = j :: rel.take jl := rfl
        rw [hst]
        show (match cs.get? j with
          | some c2 => descendPath c2 (rel.take jl)
          | none => none) = some x
        rw [hg]
        exact hx
      refine divPagesList_mem_intro cs 0 j [] c _ hg ?_
      have hj : (0 : Nat) + j = j := by omega
      rw [hj]
      exact hcomp

/-- C9 (amended): `getPages` emits a node iff its lower-cased tag is the
page-container tag `div` and no strictly shorter (ancestor) path resolves to
a div (so pages never nest); the pages come in exact document order (paths
strictly lexicographically increasing); each page's path resolves back, via
`getNodeByPath` on the same document, to that page's own node; and each
page's id is the node's `xml:id` attribute, then its `id` attribute, then
the positional fallback `page-(j+1)` for the `j`-th emitted page — the
fallback firing when the attribute is absent *or empty*
(`getAttribute(...) || ...` treats the empty string as falsy; the original
"when the attribute is absent" is refuted by `claim_C9_counterexample`). -/
theorem claim_C9_pages (d : XDoc) :
    (∀ (j : Nat) (pg : PageInfo), (getPages d).get? j = some pg →
      getNodeByPath d pg.path = .node pg.node
      ∧ isDiv pg.node = true
      ∧ (∀ jl, jl < pg.path.length → ∀ x,
          resolveList d.children (pg.path.take jl) = some x → isDiv x = false)
      ∧ pg.id = falsyOr (getAttr pg.node.attrsOf "xml:id")
          (falsyOr (getAttr pg.node.attrsOf "id") ("page-" ++ toString (j + 1))))
    ∧ (∀ (p : List Nat) (m : XNode), resolveList d.children p = some m →
        isDiv m = true →
        (∀ jl, jl < p.length → ∀ x, resolveList d.children (p.take jl) = some x →
          isDiv x = false) →
        ∃ pg ∈ getPages d, pg.path = p ∧ pg.node = m)
    ∧ List.Pairwise (fun x y => pathLt x.path y.path) (getPages d) := by
  refine ⟨?_, ?_, ?_⟩
  · intro j pg hj
    rw [getPages_eq, withIds_get? _ 0 j] at hj
    cases hL : (divPagesList d.children 0 []).get? j with
    | none => rw [hL] at hj; exact absurd hj (by simp)
    | some pr =>
      rw [hL] at hj
      have hpg : pg = ⟨pageId pr.2.attrsOf (0 + j), pr.1, pr.2⟩ :=
        (Option.some.inj hj).symm
      subst hpg
      have hmem : pr ∈ divPagesList d.children 0 [] := List.get?_mem hL
      obtain ⟨hres, hdiv, hanc⟩ := divPages_doc_sound d.children pr hmem
      refine ⟨?_, hdiv, hanc, ?_⟩
      · refine getNodeByPath_of_resolveList ?_ hres
        intro hnil
        replace hnil : pr.1 = [] := hnil
        rw [hnil] at hres
        exact absurd hres (by simp [resolveList])
      · show pageId pr.2.attrsOf (0 + j) = _
        rw [Nat.zero_add]
        rfl
  · intro p m hres hdiv hanc
    have hmem := divPages_doc_complete d.children p m hres hdiv hanc
    rw [getPages_eq]
    exact withIds_mem _ 0 (p, m) hmem
  · rw [getPages_eq]
    exact withIds_pairwise _ 0 (divPagesList_sorted d.children 0 [])

/-- C9 counterexample: a div whose `xml:id` attribute is present but empty
still gets the positional fallback id, because `getAttribute('xml:id') ||
...` treats `""` as falsy — the claim's "when the attribute is absent" is
too weak. -/
theorem claim_C9_counterexample :
    getAttr [("xml:id", "")] "xml:id" = some ""
    ∧ getPages ⟨[.element "div" [("xml:id", "")] []]⟩
      = [⟨"page-1", [0], .element "div" [("xml:id", "")] []⟩]
    ∧ "page-1" ≠ "" := by
  refine ⟨by decide, by decide, by decide⟩

/-- C9 witness: the second top-level div of a two-page document is found by
the completeness clause. -/
theorem claim_C9_pages_witness :
    ∃ pg ∈ getPages ⟨[.element "div" [("xml:id", "p1")] [],
        .element "div" [] [.text "t".toList]]⟩,
      pg.path = [1] ∧ pg.node = .element "div" [] [.text "t".toList] := by
  refine (claim_C9_pages ⟨[.element "div" [("xml:id", "p1")] [],
      .element "div" [] [.text "t".toList]]⟩).2.1 [1]
    (.element "div" [] [.text "t".toList]) (by decide) (by decide) ?_
  intro jl hjl x hx
  have h1 : jl < 1 := by simpa using hjl
  have h0 : jl = 0 := by omega
  subst h0
  exact Option.noConfusion hx
